import Mathlib

/-!
Verification development for the CMRC2019 cloze baseline
(`run_cmrc2019_baseline.py`).  The file shallowly embeds the deterministic
pre/post-processing pipeline around the neural scorer:

* the sliding-window doc-span generator of `convert_examples_to_features`;
* `_check_is_max_context` (maximum-context window ownership);
* the encoded-token / answer-position-mask construction and the
  training-time gold-position translation of `convert_examples_to_features`;
* `get_final_text` (projection of a tokenized prediction back onto the
  original text);
* the greedy conflict-resolution auction of `write_predictions`, together
  with the final per-blank output array.

Scores (Python floats holding softmax probabilities / logits) are embedded
as rationals; Python strings are embedded as Lean `String`
(whose logical model is a list of characters);
the external subword/basic tokenizers are opaque parameters.
-/

namespace Cmrc2019

/-! ## Character/string utilities mirroring the Python primitives used -/

/-- Does `pat` occur as a contiguous substring of `hay`?
Mirrors Python `hay.find(pat) > -1` / `pat in hay`. -/
def hasSubstr (hay pat : List Char) : Bool :=
  match hay with
  | [] => pat.isEmpty
  | _ :: rest => pat.isPrefixOf hay || hasSubstr rest pat

/-- Python `token.find("unused") > -1` on Lean strings. -/
def strContains (s pat : String) : Bool :=
  hasSubstr s.data pat.data

/-- First index at which `pat` occurs in `hay` (character index), or `none`.
Mirrors Python `hay.find(pat)` (which returns `-1` on failure). -/
def findSub (hay pat : List Char) : Option Nat :=
  match hay with
  | [] => if pat.isEmpty then some 0 else none
  | _ :: rest =>
    if pat.isPrefixOf hay then some 0
    else (findSub rest pat).map (· + 1)

/-- One replacement pass for `pyReplace`, with explicit fuel (the fuel is
set to the length of the subject, which suffices for a non-empty pattern;
every source-code call site uses a non-empty pattern). -/
def pyReplaceChars (pat rep : List Char) : Nat → List Char → List Char
  | 0, s => s
  | _ + 1, [] => []
  | fuel + 1, c :: rest =>
    if pat.isPrefixOf (c :: rest) then
      rep ++ pyReplaceChars pat rep fuel ((c :: rest).drop pat.length)
    else
      c :: pyReplaceChars pat rep fuel rest

/-- Python `s.replace(pat, rep)`: replace every non-overlapping occurrence,
scanning left to right. -/
def pyReplace (s pat rep : String) : String :=
  ⟨pyReplaceChars pat.data rep.data s.data.length s.data⟩

/-- Value of a non-empty all-digit character list, as Python `int` reads it. -/
def digitsValAux : List Char → Nat → Option Nat
  | [], acc => some acc
  | c :: rest, acc =>
    if c.isDigit then digitsValAux rest (acc * 10 + (c.toNat - 48)) else none

/-- Python `int(s)` on a plain (optionally signed) digit string; `none`
models the `ValueError` raised on any other input. -/
def pyIntOfStr (s : String) : Option Int :=
  match s.data with
  | [] => none
  | '-' :: rest =>
    if rest.isEmpty then none else (digitsValAux rest 0).map (fun n => -(n : Int))
  | '+' :: rest =>
    if rest.isEmpty then none else (digitsValAux rest 0).map (fun n => (n : Int))
  | l => (digitsValAux l 0).map (fun n => (n : Int))

/-- Python slice `s[a:b]` for `0 ≤ a ≤ b` (out-of-range bounds clamp). -/
def sliceStr (s : String) (a b : Nat) : String :=
  ⟨(s.data.drop a).take (b - a)⟩

/-- Python `" ".join(l)`. -/
def joinSpace (l : List String) : String :=
  String.intercalate " " l

/-- Python list assignment `l[i] = v` (with negative-index wraparound);
an out-of-range index leaves the list unchanged, modelling the
`except Exception: continue` that wraps the only call site. -/
def pySet (l : List Int) (i : Int) (v : Int) : List Int :=
  if 0 ≤ i then
    if i < (l.length : Int) then l.set i.toNat v else l
  else
    if (l.length : Int) + i < 0 then l else l.set ((l.length : Int) + i).toNat v

/-- The 15 reserved blank-marker tokens (`replace_list` targets of
`read_squad_examples`). -/
def markerStrings : List String :=
  ["[unused1]", "[unused2]", "[unused3]", "[unused4]", "[unused5]",
   "[unused6]", "[unused7]", "[unused8]", "[unused9]", "[unused10]",
   "[unused11]", "[unused12]", "[unused13]", "[unused14]", "[unused15]"]

/-- The blank index recovered from a winning candidate's text in
`write_predictions`:
`answer_pos.replace("[unused", "").replace("]", "")` followed by `int(...)`;
`none` models the exception branch. -/
def parseAnswerPos (t : String) : Option Int :=
  pyIntOfStr (pyReplace (pyReplace t "[unused" "") "]" "")

/-! ## The conflict-resolution auction of `write_predictions`

The source keeps, per answer id, a pair of parallel lists
`value = [texts, probabilities]` that are always popped in lockstep
(`tmp_value[0] = tmp_value[0][1:]; tmp_value[1] = tmp_value[1][1:]`); we
embed the pair of parallel lists as one list of (text, score) pairs.
`answer_text_dict` maps a proposed text to `[score, key]`; Python dict
update rewrites the value in place and insertion appends at the end, which
is what `setGrant` does on an association list. -/

/-- One candidate: `(best_answer_text, best_answer_score)`. -/
abbrev Cand := String × ℚ

/-- The mutable state of the `while True` auction loop:
`vals` is `answer_id_to_predict_val` (keys in insertion order),
`grants` is `answer_text_dict`. -/
structure AuctionState where
  vals : List (Nat × List Cand)
  grants : List (String × ℚ × Nat)
deriving DecidableEq

/-- Dict lookup `answer_text_dict[t]` (first matching key). -/
def lookupGrant : List (String × ℚ × Nat) → String → Option (ℚ × Nat)
  | [], _ => none
  | (u, v) :: rest, t => if u = t then some v else lookupGrant rest t

/-- Dict write `answer_text_dict[t] = v`: update in place, or append. -/
def setGrant : List (String × ℚ × Nat) → String → ℚ × Nat → List (String × ℚ × Nat)
  | [], t, v => [(t, v)]
  | (u, w) :: rest, t, v =>
    if u = t then (u, v) :: rest else (u, w) :: setGrant rest t v

/-- Dict lookup `answer_id_to_predict_val[key]` (`[]` never occurs on the
keys actually iterated). -/
def lookupVal : List (Nat × List Cand) → Nat → List Cand
  | [], _ => []
  | (k, l) :: rest, key => if k = key then l else lookupVal rest key

/-- Discard the current head candidate of choice `key`
(`tmp_value[0] = tmp_value[0][1:]` and the parallel pop of the scores). -/
def popVal : List (Nat × List Cand) → Nat → List (Nat × List Cand)
  | [], _ => []
  | (k, l) :: rest, key =>
    if k = key then (k, l.tail) :: rest else (k, l) :: popVal rest key

/-- The body of the `for key, value in answer_id_to_predict_val.items()`
loop for one `key`: the second component is the contribution to
`is_update`. -/
def stepKey (s : AuctionState) (key : Nat) : AuctionState × Bool :=
  match lookupVal s.vals key with
  | [] => (s, false)
  | (t, sc) :: _ =>
    match lookupGrant s.grants t with
    | none => ({ s with grants := setGrant s.grants t (sc, key) }, true)
    | some (sc0, k0) =>
      if sc0 < sc then
        ({ vals := popVal s.vals k0, grants := setGrant s.grants t (sc, key) }, true)
      else if k0 = key then (s, false)
      else ({ s with vals := popVal s.vals key }, true)

/-- One full pass of the `for` loop over all keys, threading `is_update`. -/
def runPassAux : List Nat → AuctionState → Bool → AuctionState × Bool
  | [], s, u => (s, u)
  | k :: rest, s, u =>
    let r := stepKey s k
    runPassAux rest r.1 (u || r.2)

/-- One iteration of the `while True` loop (`is_update` starts `False`). -/
def runPass (keys : List Nat) (s : AuctionState) : AuctionState × Bool :=
  runPassAux keys s false

/-- Total number of remaining candidates over all choices. -/
def sumLen (vs : List (Nat × List Cand)) : Nat :=
  (vs.map (fun p => p.2.length)).sum

/-- Every candidate text still present in some choice's remaining list. -/
def textsOf (vs : List (Nat × List Cand)) : List String :=
  (vs.map (fun p => p.2.map Prod.fst)).flatten

/-- Termination measure for the auction: remaining candidates plus
distinct still-present texts that have not yet been granted.  Every pass
with `is_update = True` strictly decreases it. -/
def mu (s : AuctionState) : Nat :=
  sumLen s.vals +
    (((textsOf s.vals).dedup).filter
      (fun t => (lookupGrant s.grants t).isNone)).length

/-- The `while True` loop, with an explicit pass budget.  The loop exits
when a pass reports `is_update = False` (in which case that pass has not
changed the state). -/
def auctionN : Nat → List Nat → AuctionState → AuctionState
  | 0, _, s => s
  | fuel + 1, keys, s =>
    let p := runPass keys s
    if p.2 then auctionN fuel keys p.1 else p.1

/-- The auction loop run to completion: `mu s + 1` passes always reach the
fixed point (proved below). -/
def auction (keys : List Nat) (s : AuctionState) : AuctionState :=
  auctionN (mu s + 1) keys s

/-- State of `answer_id_to_predict_val` / `answer_text_dict` after the
auction converges, for one document's per-choice candidate lists. -/
def auctionResult (input : List (Nat × List Cand)) : AuctionState :=
  auction (input.map Prod.fst) { vals := input, grants := [] }

/-- The write performed for one choice by the final
`for key, value_1 in answer_id_to_predict_val.items()` loop:
`(answer_pos - 1, int(key))`, or `none` when the list is exhausted or
`int(...)` raises. -/
def headWriteOf (p : Nat × List Cand) : Option (Int × Int) :=
  match p.2 with
  | [] => none
  | (t, _) :: _ => (parseAnswerPos t).map (fun pos => (pos - 1, (p.1 : Int)))

/-- All writes of the final output loop, in iteration order. -/
def headWrites (s : AuctionState) : List (Int × Int) :=
  s.vals.filterMap headWriteOf

/-- Output array `out_put_predict[final_id]`: start from `[-1] * B` and perform every
write (an out-of-range index is swallowed by the `except` clause). -/
def finalOutput (B : Nat) (s : AuctionState) : List Int :=
  (headWrites s).foldl (fun out w => pySet out w.1 w.2) (List.replicate B (-1))

/-- Function `write_predictions` restricted to one document: run the auction on the
per-choice candidate lists and emit the per-blank output array. -/
def write_predictions_doc (B : Nat) (input : List (Nat × List Cand)) : List Int :=
  finalOutput B (auctionResult input)

/-! ## The n-best construction of `write_predictions` (lines 557-596) -/

/-- The `for pred in prelim_predictions` accumulation into `nbest`:
stop at `n_best_size` entries, skip texts already in `seen_predictions`
(which holds exactly the texts already appended). -/
def nbestAux (n_best_size : Nat) : List (String × ℚ) → List (String × ℚ) → List (String × ℚ)
  | [], nbest => nbest
  | (t, lg) :: rest, nbest =>
    if n_best_size ≤ nbest.length then nbest
    else if t ∈ nbest.map Prod.fst then nbestAux n_best_size rest nbest
    else nbestAux n_best_size rest (nbest ++ [(t, lg)])

/-- List `nbest` for one example, including the `if not nbest` placeholder:
`preds` is the sorted preliminary-prediction list, already projected to
`(final_text, logit)` pairs. -/
def buildNbest (n_best_size : Nat) (preds : List (String × ℚ)) : List (String × ℚ) :=
  let nbest := nbestAux n_best_size preds []
  if nbest.isEmpty then [("empty", 0)] else nbest

/-! ## Sliding-window doc-span generation (`convert_examples_to_features`,
lines 310-322) -/

/-- Embeds `_DocSpan = collections.namedtuple("DocSpan", ["start", "length"])`. -/
structure DocSpan where
  start : Nat
  length : Nat
deriving DecidableEq

/-- The `while start_offset < len(all_doc_tokens)` generation loop, with
explicit fuel; `none` marks fuel exhaustion (for `doc_stride = 0` and a
document longer than the capacity the Python loop never terminates). -/
def docSpansAux (L C S : Nat) : Nat → Nat → Option (List DocSpan)
  | 0, _ => none
  | fuel + 1, start_offset =>
    if start_offset < L then
      let length := if C < L - start_offset then C else L - start_offset
      if start_offset + length = L then some [⟨start_offset, length⟩]
      else
        (docSpansAux L C S fuel (start_offset + min length S)).map
          (⟨start_offset, length⟩ :: ·)
    else some []

/-- All doc spans for a document of `L` tokens, window capacity
`C = max_seq_length - len(query_tokens) - 3` and stride `S = doc_stride`.
The fuel `L + 1` is sufficient whenever `1 ≤ S` (proved below). -/
def docSpans (L C S : Nat) : Option (List DocSpan) :=
  docSpansAux L C S (L + 1) 0

/-! ## `_check_is_max_context` (lines 465-499) -/

/-- Span end `doc_span.start + doc_span.length - 1` (Python integers can go
negative for a zero-length span, hence `Int`). -/
def spanEnd (sp : DocSpan) : Int :=
  (sp.start : Int) + sp.length - 1

/-- Does the span contain `position`?  (Negation of the two `continue`s.) -/
def containsPos (sp : DocSpan) (position : Nat) : Bool :=
  !((position : Int) < (sp.start : Int)) && !(spanEnd sp < (position : Int))

/-- Score `min(num_left_context, num_right_context) + 0.01 * doc_span.length`,
written over the common denominator 100 (a single `mkRat`, so that the
kernel can evaluate it); `spanScore_eq` below checks it against the
textbook form. -/
def spanScore (sp : DocSpan) (position : Nat) : ℚ :=
  mkRat (100 * min ((position : Int) - sp.start) (spanEnd sp - position) + sp.length) 100

/-- The body of the `for (span_index, doc_span) in enumerate(doc_spans)`
loop: skip spans that do not contain the position, otherwise update
`(best_score, best_span_index)` - a new span wins only with a strictly
greater score (`score > best_score`). -/
def bestStep (position : Nat) (best : Option (ℚ × Nat)) (n : Nat) (sp : DocSpan) :
    Option (ℚ × Nat) :=
  if containsPos sp position then
    match best with
    | none => some (spanScore sp position, n)
    | some (bs, bi) =>
      if bs < spanScore sp position then some (spanScore sp position, n)
      else some (bs, bi)
  else best

/-- The full `enumerate(doc_spans)` scan, with `n` the index of the head
span. -/
def bestSpanAux (position : Nat) : List DocSpan → Nat → Option (ℚ × Nat) → Option (ℚ × Nat)
  | [], _, best => best
  | sp :: rest, n, best => bestSpanAux position rest (n + 1) (bestStep position best n sp)

/-- Pair `(best_score, best_span_index)` over the whole span list. -/
def bestSpanPair (doc_spans : List DocSpan) (position : Nat) : Option (ℚ × Nat) :=
  bestSpanAux position doc_spans 0 none

/-- Embeds `_check_is_max_context(doc_spans, cur_span_index, position)`:
`cur_span_index == best_span_index` (false when no span contains the
position, since Python `int == None` is false). -/
def check_is_max_context (doc_spans : List DocSpan) (cur_span_index position : Nat) : Bool :=
  match bestSpanPair doc_spans position with
  | none => false
  | some (_, bi) => cur_span_index == bi

/-! ## Sub-tokenization bookkeeping and feature construction
(`convert_examples_to_features`, lines 283-295, 324-354, 373-385) -/

/-- The loop body of lines 283-295, iterated over `example.doc_tokens`
with accumulator `(all_doc_tokens, tok_to_orig_index, orig_to_tok_index)`:
a token containing `"unused"` is kept atomic, anything else goes through
the (external) subword tokenizer `subTok`; `orig_to_tok_index` records
`len(all_doc_tokens)` before the token's sub-tokens are appended, and
`tok_to_orig_index` records the word index (the current length of
`orig_to_tok_index`) once per sub-token. -/
def buildDocTokAux (subTok : String → List String) :
    List String → List String × List Nat × List Nat →
      List String × List Nat × List Nat
  | [], acc => acc
  | token :: rest, acc =>
    let subs := if strContains token "unused" then [token] else subTok token
    buildDocTokAux subTok rest
      (acc.1 ++ subs,
       acc.2.1 ++ subs.map (fun _ => acc.2.2.length),
       acc.2.2 ++ [acc.1.length])

/-- Lines 283-295: `(all_doc_tokens, tok_to_orig_index, orig_to_tok_index)`
built from `example.doc_tokens`. -/
def buildDocTok (subTok : String → List String) (doc_tokens : List String) :
    List String × List Nat × List Nat :=
  buildDocTokAux subTok doc_tokens ([], [], [])

/-- Lines 373-385: the training-time keep/drop decision and target
position for one window.  The drop test compares `example.position`
(`w`, a word-level index) against the window's sub-token bounds; the kept
target uses `tok_position = orig_to_tok_index[example.position]`. -/
def featureTarget (queryLen : Nat) (orig_to_tok_index : List Nat) (w : Nat)
    (sp : DocSpan) : Option Int :=
  let doc_start := sp.start
  let doc_end := sp.start + sp.length - 1
  if w < doc_start ∨ doc_end < w then none
  else some (((orig_to_tok_index.getD w 0 : Nat) : Int) - doc_start + (queryLen + 2))

/-- Lines 324-348: the encoded token sequence
`[CLS] query [SEP] window-slice [SEP]` for one doc span. -/
def buildTokens (query_tokens all_doc_tokens : List String) (sp : DocSpan) : List String :=
  "[CLS]" :: query_tokens ++ ["[SEP]"] ++
    ((all_doc_tokens.drop sp.start).take sp.length) ++ ["[SEP]"]

/-- Lines 349-354: `answer_position_mask = [0] * max_seq_length`, then 1
at every encoded position whose token contains `"unused"`. -/
def answer_position_mask (max_seq_length : Nat) (tokens : List String) : List Nat :=
  (List.range tokens.length).foldl
    (fun mask word_index =>
      if strContains (tokens.getD word_index "") "unused" then mask.set word_index 1
      else mask)
    (List.replicate max_seq_length 0)

/-! ## `get_final_text` (lines 703-796)

`BasicTokenizer` comes from an external library, so it enters as an
opaque parameter `basicTok` (the `do_lower_case` flag is absorbed into
it). -/

/-- Helper `_strip_spaces`: the non-space characters together with the
`ns_to_s_map` association (stripped index ↦ original index).  `i` is the
current original index and `k = len(ns_chars)` so far. -/
def stripSpacesAux : List Char → Nat → Nat → List Char × List (Nat × Nat)
  | [], _, _ => ([], [])
  | c :: rest, i, k =>
    if c = ' ' then stripSpacesAux rest (i + 1) k
    else
      let r := stripSpacesAux rest (i + 1) (k + 1)
      (c :: r.1, (k, i) :: r.2)

/-- Embeds `_strip_spaces(text)`. -/
def strip_spaces (text : String) : String × List (Nat × Nat) :=
  let r := stripSpacesAux text.data 0 0
  (⟨r.1⟩, r.2)

/-- Association-list lookup, mirroring Python `x in d` / `d[x]`. -/
def assocLookup : List (Nat × Nat) → Nat → Option Nat
  | [], _ => none
  | (a, b) :: rest, x => if a = x then some b else assocLookup rest x

/-- Inversion `tok_s_to_ns_map[tok_index] = i` of `tok_ns_to_s_map`
(whose values are strictly increasing, so no key collides). -/
def mapInv (m : List (Nat × Nat)) : List (Nat × Nat) :=
  m.map (fun p => (p.2, p.1))

/-- Embeds `get_final_text(pred_text, orig_text, ...)`: project the tokenized
prediction back onto the original text; every failure returns
`orig_text` unchanged. -/
def get_final_text (basicTok : String → List String) (pred_text orig_text : String) : String :=
  let tok_text := joinSpace (basicTok orig_text)
  match findSub tok_text.data pred_text.data with
  | none => orig_text
  | some start_position =>
    let end_position := start_position + pred_text.length - 1
    if (strip_spaces orig_text).1.length ≠ (strip_spaces tok_text).1.length then
      orig_text
    else
      match assocLookup (mapInv (strip_spaces tok_text).2) start_position with
      | none => orig_text
      | some ns_start =>
        match assocLookup (strip_spaces orig_text).2 ns_start with
        | none => orig_text
        | some orig_start =>
          match assocLookup (mapInv (strip_spaces tok_text).2) end_position with
          | none => orig_text
          | some ns_end =>
            match assocLookup (strip_spaces orig_text).2 ns_end with
            | none => orig_text
            | some orig_end => sliceStr orig_text orig_start (orig_end + 1)

/-! ## Invariants of the auction loop -/

/-- Every grant in `answer_text_dict` points at a choice whose current
head candidate is exactly the granted text with the granted score.  This
holds initially (the dict starts empty) and is preserved by every step. -/
def GrantsConsistent (s : AuctionState) : Prop :=
  ∀ t sc k, lookupGrant s.grants t = some (sc, k) →
    ∃ rest, lookupVal s.vals k = (t, sc) :: rest

/-- Relation stating `vs'` refines `vs`: same keys in the same order, and every choice's
remaining candidate list is a suffix of what it was in `vs`. -/
def ValsLe (vs' vs : List (Nat × List Cand)) : Prop :=
  List.Forall₂ (fun p q => p.1 = q.1 ∧ p.2 <:+ q.2) vs' vs

/-! ## Concrete instances used by the witnesses and counterexamples -/

/-- The spec's concrete scenario: three choices with candidate lists
`c0 = [(u1, 0.9), (u2, 0.1)]`, `c1 = [(u1, 0.95), (u3, 0.2)]`,
`c2 = [(u2, 0.8), (u1, 0.3)]`. -/
def c1input : List (Nat × List Cand) :=
  [(0, [("[unused1]", mkRat 9 10), ("[unused2]", mkRat 1 10)]),
   (1, [("[unused1]", mkRat 19 20), ("[unused3]", mkRat 1 5)]),
   (2, [("[unused2]", mkRat 4 5), ("[unused1]", mkRat 3 10)])]

/-- One choice holding one candidate: a pass over it grants the candidate
(`is_update = True`) but discards nothing. -/
def c2input : List (Nat × List Cand) :=
  [(0, [("[unused1]", mkRat 1 1)])]

/-- A state in which choice 0 holds the grant on `[unused1]` with score
1/2 and choice 1 proposes the same text with the same score. -/
def tieState : AuctionState :=
  { vals := [(0, [("[unused1]", mkRat 1 2), ("[unused2]", mkRat 1 3)]),
             (1, [("[unused1]", mkRat 1 2)])],
    grants := [("[unused1]", mkRat 1 2, 0)] }

/-- A subword tokenizer that splits the token `"ab"` in two and keeps
everything else whole. -/
def subTokSplit : String → List String :=
  fun t => if t = "ab" then ["a", "b"] else [t]

/-- Value of `orig_to_tok_index` for `doc_tokens = ["ab", "c"]` under
`subTokSplit` (evaluates to `[0, 2]`). -/
def o2tSplit : List Nat :=
  (buildDocTok subTokSplit ["ab", "c"]).2.2

/-! # Lemmas -/

/-! ## Dictionary lemmas -/

theorem lookupGrant_setGrant (g : List (String × ℚ × Nat)) (t : String)
    (v : ℚ × Nat) (u : String) :
    lookupGrant (setGrant g t v) u = if u = t then some v else lookupGrant g u := by
  induction g with
  | nil =>
    by_cases h : u = t
    · subst h; simp [setGrant, lookupGrant]
    · have h' : ¬ t = u := fun hh => h hh.symm
      simp [setGrant, lookupGrant, h, h']
  | cons p rest ih =>
    obtain ⟨w, x⟩ := p
    by_cases hw : w = t
    · subst hw
      by_cases h : u = w
      · subst h; simp [setGrant, lookupGrant]
      · have h' : ¬ w = u := fun hh => h hh.symm
        simp [setGrant, lookupGrant, h, h']
    · by_cases hwu : w = u
      · subst hwu
        simp [setGrant, lookupGrant, hw]
      · simp [setGrant, lookupGrant, hw, hwu, ih]

theorem lookupVal_popVal (vs : List (Nat × List Cand)) (k key : Nat) :
    lookupVal (popVal vs k) key =
      if key = k then (lookupVal vs k).tail else lookupVal vs key := by
  induction vs with
  | nil =>
    by_cases h : key = k <;> simp [popVal, lookupVal, h]
  | cons p rest ih =>
    obtain ⟨k0, l0⟩ := p
    by_cases hk0 : k0 = k
    · subst hk0
      by_cases h : key = k0
      · subst h; simp [popVal, lookupVal]
      · have h' : ¬ k0 = key := fun hh => h hh.symm
        simp [popVal, lookupVal, h, h']
    · by_cases hk0u : k0 = key
      · subst hk0u
        simp [popVal, lookupVal, hk0]
      · simp [popVal, lookupVal, hk0, hk0u, ih]

theorem popVal_map_fst (vs : List (Nat × List Cand)) (k : Nat) :
    (popVal vs k).map Prod.fst = vs.map Prod.fst := by
  induction vs with
  | nil => simp [popVal]
  | cons p rest ih =>
    obtain ⟨k0, l0⟩ := p
    by_cases h : k0 = k <;> simp [popVal, h, ih]

theorem sumLen_popVal (vs : List (Nat × List Cand)) (k : Nat) (c : Cand)
    (rest : List Cand) (h : lookupVal vs k = c :: rest) :
    sumLen (popVal vs k) + 1 = sumLen vs := by
  induction vs with
  | nil => simp [lookupVal] at h
  | cons p vrest ih =>
    obtain ⟨k0, l0⟩ := p
    by_cases hk : k0 = k
    · subst hk
      simp only [lookupVal, if_pos rfl] at h
      subst h
      simp [popVal, sumLen]
      omega
    · simp only [lookupVal, if_neg hk] at h
      have := ih h
      simp only [popVal, if_neg hk, sumLen, List.map_cons, List.sum_cons] at *
      omega

theorem textsOf_popVal_subset (vs : List (Nat × List Cand)) (k : Nat) :
    ∀ x, x ∈ textsOf (popVal vs k) → x ∈ textsOf vs := by
  induction vs with
  | nil => simp [popVal]
  | cons p rest ih =>
    obtain ⟨k0, l0⟩ := p
    intro x hx
    by_cases hk : k0 = k
    · simp only [popVal, if_pos hk, textsOf, List.map_cons, List.flatten_cons,
        List.mem_append] at hx ⊢
      rcases hx with hx | hx
      · rcases List.mem_map.1 hx with ⟨c, hc, rfl⟩
        exact Or.inl (List.mem_map.2 ⟨c, List.mem_of_mem_tail hc, rfl⟩)
      · exact Or.inr hx
    · simp only [popVal, if_neg hk, textsOf, List.map_cons, List.flatten_cons,
        List.mem_append] at hx ⊢
      rcases hx with hx | hx
      · exact Or.inl hx
      · exact Or.inr (ih x hx)

theorem head_text_mem_textsOf (vs : List (Nat × List Cand)) (k : Nat)
    (t : String) (sc : ℚ) (rest : List Cand)
    (h : lookupVal vs k = (t, sc) :: rest) : t ∈ textsOf vs := by
  induction vs with
  | nil => simp [lookupVal] at h
  | cons p vrest ih =>
    obtain ⟨k0, l0⟩ := p
    by_cases hk : k0 = k
    · subst hk
      simp only [lookupVal, if_pos rfl] at h
      subst h
      simp [textsOf]
    · simp only [lookupVal, if_neg hk] at h
      simp only [textsOf, List.map_cons, List.flatten_cons, List.mem_append]
      exact Or.inr (ih h)

theorem lookupVal_eq_of_mem (vs : List (Nat × List Cand)) (k : Nat)
    (l : List Cand) (hnd : (vs.map Prod.fst).Nodup) (hm : (k, l) ∈ vs) :
    lookupVal vs k = l := by
  induction vs with
  | nil => simp at hm
  | cons p rest ih =>
    obtain ⟨k0, l0⟩ := p
    simp only [List.map_cons, List.nodup_cons] at hnd
    rcases List.mem_cons.1 hm with hm' | hm'
    · injection hm' with h1 h2
      subst h1; subst h2
      simp [lookupVal]
    · have hne : k0 ≠ k := by
        intro h
        subst h
        exact hnd.1 (List.mem_map.2 ⟨(k0, l), hm', rfl⟩)
      simp only [lookupVal, if_neg hne]
      exact ih hnd.2 hm'

/-! ## Generic filter-length lemmas for the termination measure -/

theorem filter_length_mono {α : Type} {l : List α} {p q : α → Bool}
    (h : ∀ x ∈ l, q x = true → p x = true) :
    (l.filter q).length ≤ (l.filter p).length := by
  induction l with
  | nil => simp
  | cons a rest ih =>
    have hrest : ∀ x ∈ rest, q x = true → p x = true :=
      fun x hx => h x (List.mem_cons_of_mem a hx)
    by_cases ha : q a = true
    · rw [List.filter_cons_of_pos ha, List.filter_cons_of_pos (h a (List.mem_cons_self a rest) ha)]
      simpa using ih hrest
    · rw [List.filter_cons_of_neg (by simpa using ha)]
      by_cases hpa : p a = true
      · rw [List.filter_cons_of_pos hpa]
        exact le_trans (ih hrest) (Nat.le_succ _)
      · rw [List.filter_cons_of_neg (by simpa using hpa)]
        exact ih hrest

theorem filter_length_lt {α : Type} {l : List α} {p q : α → Bool}
    (h : ∀ x ∈ l, q x = true → p x = true) (x : α) (hx : x ∈ l)
    (hpx : p x = true) (hqx : q x = false) :
    (l.filter q).length < (l.filter p).length := by
  induction l with
  | nil => simp at hx
  | cons a rest ih =>
    have hrest : ∀ y ∈ rest, q y = true → p y = true :=
      fun y hy => h y (List.mem_cons_of_mem a hy)
    rcases List.mem_cons.1 hx with hx | hx
    · subst hx
      rw [List.filter_cons_of_neg (by simp [hqx]), List.filter_cons_of_pos hpx]
      exact Nat.lt_succ_of_le (filter_length_mono hrest)
    · by_cases ha : q a = true
      · rw [List.filter_cons_of_pos ha, List.filter_cons_of_pos (h a (List.mem_cons_self a rest) ha)]
        simpa using ih hrest hx
      · rw [List.filter_cons_of_neg (by simpa using ha)]
        by_cases hpa : p a = true
        · rw [List.filter_cons_of_pos hpa]
          exact Nat.lt_succ_of_le (le_of_lt (ih hrest hx))
        · rw [List.filter_cons_of_neg (by simpa using hpa)]
          exact ih hrest hx

theorem dedup_filter_le (l' l : List String) (p : String → Bool)
    (h : ∀ x ∈ l', x ∈ l) :
    ((l'.dedup).filter p).length ≤ ((l.dedup).filter p).length := by
  have hnd : ((l'.dedup).filter p).Nodup := (List.nodup_dedup l').filter p
  have hsub : (l'.dedup).filter p ⊆ (l.dedup).filter p := by
    intro x hx
    rw [List.mem_filter] at hx ⊢
    exact ⟨List.mem_dedup.2 (h x (List.mem_dedup.1 hx.1)), hx.2⟩
  exact (List.subperm_of_subset hnd hsub).length_le

/-! ## One auction step: case analysis and invariants -/

theorem stepKey_cases (s : AuctionState) (key : Nat) :
    (stepKey s key = (s, false) ∧
      (lookupVal s.vals key = [] ∨
        ∃ t sc rest sc0, lookupVal s.vals key = (t, sc) :: rest ∧
          lookupGrant s.grants t = some (sc0, key) ∧ ¬ sc0 < sc)) ∨
    (∃ t sc rest, lookupVal s.vals key = (t, sc) :: rest ∧
      lookupGrant s.grants t = none ∧
      stepKey s key = ({ s with grants := setGrant s.grants t (sc, key) }, true)) ∨
    (∃ t sc rest sc0 k0, lookupVal s.vals key = (t, sc) :: rest ∧
      lookupGrant s.grants t = some (sc0, k0) ∧ sc0 < sc ∧
      stepKey s key =
        ({ vals := popVal s.vals k0, grants := setGrant s.grants t (sc, key) }, true)) ∨
    (∃ t sc rest sc0 k0, lookupVal s.vals key = (t, sc) :: rest ∧
      lookupGrant s.grants t = some (sc0, k0) ∧ ¬ sc0 < sc ∧ k0 ≠ key ∧
      stepKey s key = ({ s with vals := popVal s.vals key }, true)) := by
  cases hv : lookupVal s.vals key with
  | nil => exact Or.inl ⟨by simp [stepKey, hv], Or.inl rfl⟩
  | cons c rest =>
    obtain ⟨t, sc⟩ := c
    cases hg : lookupGrant s.grants t with
    | none =>
      exact Or.inr (Or.inl ⟨t, sc, rest, rfl, hg, by simp [stepKey, hv, hg]⟩)
    | some v =>
      obtain ⟨sc0, k0⟩ := v
      by_cases hlt : sc0 < sc
      · exact Or.inr (Or.inr (Or.inl
          ⟨t, sc, rest, sc0, k0, rfl, hg, hlt, by simp [stepKey, hv, hg, hlt]⟩))
      · by_cases hk : k0 = key
        · subst hk
          exact Or.inl ⟨by simp [stepKey, hv, hg, hlt], Or.inr ⟨t, sc, rest, sc0, rfl, hg, hlt⟩⟩
        · exact Or.inr (Or.inr (Or.inr
            ⟨t, sc, rest, sc0, k0, rfl, hg, hlt, hk, by simp [stepKey, hv, hg, hlt, hk]⟩))

theorem stepKey_false_eq (s : AuctionState) (key : Nat)
    (h : (stepKey s key).2 = false) : (stepKey s key).1 = s := by
  rcases stepKey_cases s key with ⟨heq, _⟩ | ⟨t, sc, rest, _, _, heq⟩ |
    ⟨t, sc, rest, sc0, k0, _, _, _, heq⟩ | ⟨t, sc, rest, sc0, k0, _, _, _, _, heq⟩ <;>
    rw [heq] at h ⊢ <;> simp_all

theorem stepKey_map_fst (s : AuctionState) (key : Nat) :
    (stepKey s key).1.vals.map Prod.fst = s.vals.map Prod.fst := by
  rcases stepKey_cases s key with ⟨heq, _⟩ | ⟨t, sc, rest, _, _, heq⟩ |
    ⟨t, sc, rest, sc0, k0, _, _, _, heq⟩ | ⟨t, sc, rest, sc0, k0, _, _, _, _, heq⟩ <;>
    rw [heq] <;> simp [popVal_map_fst]

theorem stepKey_consistent (s : AuctionState) (key : Nat)
    (hI : GrantsConsistent s) : GrantsConsistent (stepKey s key).1 := by
  rcases stepKey_cases s key with ⟨heq, _⟩ | ⟨t, sc, rest, hv, hg, heq⟩ |
    ⟨t, sc, rest, sc0, k0, hv, hg, hlt, heq⟩ |
    ⟨t, sc, rest, sc0, k0, hv, hg, hlt, hk, heq⟩
  · rw [heq]; exact hI
  · rw [heq]
    intro u sc' k' hu
    simp only at hu
    rw [lookupGrant_setGrant] at hu
    by_cases hut : u = t
    · rw [if_pos hut] at hu
      injection hu with hu
      injection hu with h1 h2
      subst h1; subst h2; subst hut
      exact ⟨rest, hv⟩
    · rw [if_neg hut] at hu
      exact hI u sc' k' hu
  · -- displacement: the incumbent k0 loses its head, the challenger wins
    obtain ⟨r0, hk0v⟩ := hI t sc0 k0 hg
    have hk0key : k0 ≠ key := by
      intro h
      subst h
      rw [hv] at hk0v
      injection hk0v with h1 _
      injection h1 with _ h2
      exact absurd hlt (by rw [h2]; exact lt_irrefl sc0)
    rw [heq]
    intro u sc' k' hu
    simp only at hu ⊢
    rw [lookupGrant_setGrant] at hu
    by_cases hut : u = t
    · rw [if_pos hut] at hu
      injection hu with hu
      injection hu with h1 h2
      subst h1; subst h2; subst hut
      refine ⟨rest, ?_⟩
      rw [lookupVal_popVal, if_neg (fun hh => hk0key hh.symm)]
      exact hv
    · rw [if_neg hut] at hu
      obtain ⟨r, hr⟩ := hI u sc' k' hu
      have hk' : k' ≠ k0 := by
        intro h
        subst h
        rw [hr] at hk0v
        injection hk0v with h1 _
        injection h1 with h2 _
        exact hut h2
      refine ⟨r, ?_⟩
      rw [lookupVal_popVal, if_neg hk']
      exact hr
  · -- the challenger's losing proposal is discarded
    rw [heq]
    intro u sc' k' hu
    simp only at hu ⊢
    obtain ⟨r, hr⟩ := hI u sc' k' hu
    have hk' : k' ≠ key := by
      intro h
      subst h
      rw [hv] at hr
      injection hr with h1 _
      injection h1 with h2 _
      subst h2
      rw [hu] at hg
      injection hg with h3
      injection h3 with _ h4
      exact hk h4.symm
    refine ⟨r, ?_⟩
    rw [lookupVal_popVal, if_neg hk']
    exact hr

theorem stepKey_mu_lt (s : AuctionState) (key : Nat)
    (hI : GrantsConsistent s) (h : (stepKey s key).2 = true) :
    mu (stepKey s key).1 < mu s := by
  rcases stepKey_cases s key with ⟨heq, _⟩ | ⟨t, sc, rest, hv, hg, heq⟩ |
    ⟨t, sc, rest, sc0, k0, hv, hg, hlt, heq⟩ |
    ⟨t, sc, rest, sc0, k0, hv, hg, hlt, hk, heq⟩
  · rw [heq] at h; simp at h
  · -- a fresh grant: one fewer ungranted proposed text
    rw [heq]
    unfold mu
    simp only
    have hlt' : (((textsOf s.vals).dedup).filter
          (fun x => (lookupGrant (setGrant s.grants t (sc, key)) x).isNone)).length <
        (((textsOf s.vals).dedup).filter
          (fun x => (lookupGrant s.grants x).isNone)).length := by
      apply filter_length_lt
        (x := t)
      · intro x _ hq
        rw [lookupGrant_setGrant] at hq
        by_cases hxt : x = t
        · rw [if_pos hxt] at hq; simp at hq
        · rw [if_neg hxt] at hq; exact hq
      · exact List.mem_dedup.2 (head_text_mem_textsOf s.vals key t sc rest hv)
      · simp [hg]
      · simp [lookupGrant_setGrant]
    omega
  · -- displacement: the incumbent's list strictly shrinks
    obtain ⟨r0, hk0v⟩ := hI t sc0 k0 hg
    rw [heq]
    unfold mu
    simp only
    have hsum : sumLen (popVal s.vals k0) + 1 = sumLen s.vals :=
      sumLen_popVal s.vals k0 (t, sc0) r0 hk0v
    have hfe : ((textsOf (popVal s.vals k0)).dedup).filter
          (fun x => (lookupGrant (setGrant s.grants t (sc, key)) x).isNone) =
        ((textsOf (popVal s.vals k0)).dedup).filter
          (fun x => (lookupGrant s.grants x).isNone) := by
      apply List.filter_congr
      intro x _
      rw [lookupGrant_setGrant]
      by_cases hxt : x = t
      · rw [if_pos hxt, hxt, hg]; rfl
      · rw [if_neg hxt]
    rw [hfe]
    have hle := dedup_filter_le (textsOf (popVal s.vals k0)) (textsOf s.vals)
      (fun x => (lookupGrant s.grants x).isNone) (textsOf_popVal_subset s.vals k0)
    omega
  · -- a discarded losing proposal: the challenger's list strictly shrinks
    rw [heq]
    unfold mu
    simp only
    have hsum : sumLen (popVal s.vals key) + 1 = sumLen s.vals :=
      sumLen_popVal s.vals key (t, sc) rest hv
    have hle := dedup_filter_le (textsOf (popVal s.vals key)) (textsOf s.vals)
      (fun x => (lookupGrant s.grants x).isNone) (textsOf_popVal_subset s.vals key)
    omega

theorem stepKey_mu_le (s : AuctionState) (key : Nat)
    (hI : GrantsConsistent s) : mu (stepKey s key).1 ≤ mu s := by
  cases h : (stepKey s key).2 with
  | true => exact le_of_lt (stepKey_mu_lt s key hI h)
  | false => rw [stepKey_false_eq s key h]

/-! ## One full pass -/

theorem runPassAux_consistent (keys : List Nat) :
    ∀ (s : AuctionState) (u : Bool), GrantsConsistent s →
      GrantsConsistent (runPassAux keys s u).1 := by
  induction keys with
  | nil => intro s u hI; exact hI
  | cons k rest ih =>
    intro s u hI
    exact ih (stepKey s k).1 (u || (stepKey s k).2) (stepKey_consistent s k hI)

theorem runPassAux_mu_le (keys : List Nat) :
    ∀ (s : AuctionState) (u : Bool), GrantsConsistent s →
      mu (runPassAux keys s u).1 ≤ mu s := by
  induction keys with
  | nil => intro s u _; exact le_refl _
  | cons k rest ih =>
    intro s u hI
    exact le_trans
      (ih (stepKey s k).1 (u || (stepKey s k).2) (stepKey_consistent s k hI))
      (stepKey_mu_le s k hI)

theorem runPassAux_map_fst (keys : List Nat) :
    ∀ (s : AuctionState) (u : Bool),
      (runPassAux keys s u).1.vals.map Prod.fst = s.vals.map Prod.fst := by
  induction keys with
  | nil => intro s u; rfl
  | cons k rest ih =>
    intro s u
    rw [runPassAux]
    exact (ih _ _).trans (stepKey_map_fst s k)

theorem runPassAux_false (keys : List Nat) :
    ∀ (s : AuctionState) (u : Bool), (runPassAux keys s u).2 = false →
      (runPassAux keys s u).1 = s ∧ u = false ∧
        ∀ k ∈ keys, stepKey s k = (s, false) := by
  induction keys with
  | nil =>
    intro s u h
    exact ⟨rfl, h, by simp⟩
  | cons k rest ih =>
    intro s u h
    rw [runPassAux] at h
    obtain ⟨h1, h2, h3⟩ := ih (stepKey s k).1 (u || (stepKey s k).2) h
    have hu : u = false := by
      cases u
      · rfl
      · simp at h2
    have hk2 : (stepKey s k).2 = false := by
      cases hflag : (stepKey s k).2
      · rfl
      · rw [hu, hflag] at h2; simp at h2
    have hk1 : (stepKey s k).1 = s := stepKey_false_eq s k hk2
    rw [hk1] at h1
    refine ⟨by rw [runPassAux]; rw [hk1]; exact h1, hu, ?_⟩
    intro k' hk'
    rcases List.mem_cons.1 hk' with hk' | hk'
    · subst hk'
      calc stepKey s k' = ((stepKey s k').1, (stepKey s k').2) := rfl
        _ = (s, false) := by rw [hk1, hk2]
    · have := h3 k' hk'
      rw [hk1] at this
      exact this

theorem runPassAux_true_mu_lt (keys : List Nat) :
    ∀ (s : AuctionState), GrantsConsistent s →
      (runPassAux keys s false).2 = true →
      mu (runPassAux keys s false).1 < mu s := by
  induction keys with
  | nil => intro s _ h; simp [runPassAux] at h
  | cons k rest ih =>
    intro s hI h
    rw [runPassAux] at h ⊢
    cases hflag : (stepKey s k).2 with
    | true =>
      have h1 : mu (stepKey s k).1 < mu s := stepKey_mu_lt s k hI hflag
      have h2 := runPassAux_mu_le rest (stepKey s k).1
        (false || (stepKey s k).2) (stepKey_consistent s k hI)
      rw [hflag] at h2
      exact lt_of_le_of_lt h2 h1
    | false =>
      have hk1 : (stepKey s k).1 = s := stepKey_false_eq s k hflag
      rw [hk1, hflag] at h
      rw [hk1]
      simp only [Bool.or_self] at h ⊢
      exact ih s hI h

/-! ## The full loop reaches a fixed point -/

theorem auctionN_succ_true (n : Nat) (keys : List Nat) (s : AuctionState)
    (hflag : (runPass keys s).2 = true) :
    auctionN (n + 1) keys s = auctionN n keys (runPass keys s).1 := by
  rw [auctionN]
  simp only [hflag, if_true]

theorem auctionN_succ_false (n : Nat) (keys : List Nat) (s : AuctionState)
    (hflag : (runPass keys s).2 = false) :
    auctionN (n + 1) keys s = (runPass keys s).1 := by
  rw [auctionN]
  simp only [hflag, Bool.false_eq_true, if_false]

theorem auctionN_consistent (fuel : Nat) (keys : List Nat) :
    ∀ (s : AuctionState), GrantsConsistent s →
      GrantsConsistent (auctionN fuel keys s) := by
  induction fuel with
  | zero => intro s hI; exact hI
  | succ n ih =>
    intro s hI
    cases hflag : (runPass keys s).2 with
    | true =>
      rw [auctionN_succ_true n keys s hflag]
      exact ih _ (runPassAux_consistent keys s false hI)
    | false =>
      rw [auctionN_succ_false n keys s hflag]
      have h1 : (runPass keys s).1 = s := (runPassAux_false keys s false hflag).1
      rw [h1]
      exact hI

theorem auctionN_map_fst (fuel : Nat) (keys : List Nat) :
    ∀ (s : AuctionState),
      (auctionN fuel keys s).vals.map Prod.fst = s.vals.map Prod.fst := by
  induction fuel with
  | zero => intro s; rfl
  | succ n ih =>
    intro s
    cases hflag : (runPass keys s).2 with
    | true =>
      rw [auctionN_succ_true n keys s hflag]
      exact (ih _).trans (runPassAux_map_fst keys s false)
    | false =>
      rw [auctionN_succ_false n keys s hflag]
      exact runPassAux_map_fst keys s false

theorem auctionN_fix (fuel : Nat) (keys : List Nat) :
    ∀ (s : AuctionState), GrantsConsistent s → mu s < fuel →
      runPass keys (auctionN fuel keys s) = (auctionN fuel keys s, false) := by
  induction fuel with
  | zero => intro s _ h; omega
  | succ n ih =>
    intro s hI hfuel
    cases hflag : (runPass keys s).2 with
    | true =>
      rw [auctionN_succ_true n keys s hflag]
      have hlt : mu (runPass keys s).1 < mu s :=
        runPassAux_true_mu_lt keys s hI hflag
      exact ih (runPass keys s).1 (runPassAux_consistent keys s false hI) (by omega)
    | false =>
      rw [auctionN_succ_false n keys s hflag]
      have h1 : (runPass keys s).1 = s := (runPassAux_false keys s false hflag).1
      rw [h1]
      calc runPass keys s = ((runPass keys s).1, (runPass keys s).2) := rfl
        _ = (s, false) := by rw [h1, hflag]

theorem auction_fix (keys : List Nat) (s : AuctionState)
    (hI : GrantsConsistent s) :
    runPass keys (auction keys s) = (auction keys s, false) := by
  unfold auction
  exact auctionN_fix (mu s + 1) keys s hI (Nat.lt_succ_self _)

/-- The initial state of the auction satisfies the grant invariant
(the grant dictionary starts out empty). -/
theorem initial_consistent (input : List (Nat × List Cand)) :
    GrantsConsistent { vals := input, grants := [] } := by
  intro t sc k h
  simp [lookupGrant] at h

/-! ## The candidate lists only ever lose elements from the front -/

theorem valsLe_refl (vs : List (Nat × List Cand)) : ValsLe vs vs := by
  induction vs with
  | nil => exact List.Forall₂.nil
  | cons p rest ih => exact List.Forall₂.cons ⟨rfl, List.suffix_refl _⟩ ih

theorem popVal_valsLe (vs : List (Nat × List Cand)) (k : Nat) :
    ValsLe (popVal vs k) vs := by
  induction vs with
  | nil => exact List.Forall₂.nil
  | cons p rest ih =>
    obtain ⟨k0, l0⟩ := p
    by_cases hk : k0 = k
    · rw [popVal, if_pos hk]
      exact List.Forall₂.cons ⟨rfl, List.tail_suffix l0⟩ (valsLe_refl rest)
    · rw [popVal, if_neg hk]
      exact List.Forall₂.cons ⟨rfl, List.suffix_refl l0⟩ ih

theorem valsLe_trans {a b c : List (Nat × List Cand)}
    (h1 : ValsLe a b) (h2 : ValsLe b c) : ValsLe a c := by
  induction h1 generalizing c with
  | nil =>
    cases h2
    exact List.Forall₂.nil
  | cons hab h1' ih =>
    cases h2 with
    | cons hbc h2' =>
      exact List.Forall₂.cons ⟨hab.1.trans hbc.1, hab.2.trans hbc.2⟩ (ih h2')

theorem stepKey_valsLe (s : AuctionState) (key : Nat) :
    ValsLe (stepKey s key).1.vals s.vals := by
  rcases stepKey_cases s key with ⟨heq, _⟩ | ⟨t, sc, rest, _, _, heq⟩ |
    ⟨t, sc, rest, sc0, k0, _, _, _, heq⟩ | ⟨t, sc, rest, sc0, k0, _, _, _, _, heq⟩ <;>
    rw [heq] <;> first
      | exact valsLe_refl _
      | exact popVal_valsLe _ _

theorem runPassAux_valsLe (keys : List Nat) :
    ∀ (s : AuctionState) (u : Bool),
      ValsLe (runPassAux keys s u).1.vals s.vals := by
  induction keys with
  | nil => intro s u; exact valsLe_refl _
  | cons k rest ih =>
    intro s u
    rw [runPassAux]
    exact valsLe_trans (ih _ _) (stepKey_valsLe s k)

theorem auctionN_valsLe (fuel : Nat) (keys : List Nat) :
    ∀ (s : AuctionState), ValsLe (auctionN fuel keys s).vals s.vals := by
  induction fuel with
  | zero => intro s; exact valsLe_refl _
  | succ n ih =>
    intro s
    cases hflag : (runPass keys s).2 with
    | true =>
      rw [auctionN_succ_true n keys s hflag]
      exact valsLe_trans (ih _) (runPassAux_valsLe keys s false)
    | false =>
      rw [auctionN_succ_false n keys s hflag]
      exact runPassAux_valsLe keys s false

theorem valsLe_mem {vs' vs : List (Nat × List Cand)} (h : ValsLe vs' vs)
    {p : Nat × List Cand} (hp : p ∈ vs') :
    ∃ q ∈ vs, p.1 = q.1 ∧ p.2 <:+ q.2 := by
  induction h with
  | nil => simp at hp
  | cons hab h' ih =>
    rcases List.mem_cons.1 hp with hp' | hp'
    · subst hp'
      exact ⟨_, List.mem_cons_self _ _, hab⟩
    · obtain ⟨q, hq, hq2⟩ := ih hp'
      exact ⟨q, List.mem_cons_of_mem _ hq, hq2⟩

/-! ## The assignment read off at the fixed point -/

/-- Parsing via `int(...)` distinguishes the fifteen reserved markers: the recovered
blank indices are pairwise distinct. -/
theorem parse_inj_markers : ∀ t1 ∈ markerStrings, ∀ t2 ∈ markerStrings,
    parseAnswerPos t1 = parseAnswerPos t2 → t1 = t2 := by decide

theorem fixpoint_head_grant (s : AuctionState) (keys : List Nat)
    (hfix : ∀ k ∈ keys, stepKey s k = (s, false))
    (k : Nat) (t : String) (sc : ℚ) (rest : List Cand)
    (hk : k ∈ keys) (hv : lookupVal s.vals k = (t, sc) :: rest) :
    ∃ sc0, lookupGrant s.grants t = some (sc0, k) := by
  have h := hfix k hk
  rcases stepKey_cases s k with ⟨heq, hd⟩ | ⟨t', sc', rest', hv', hg', heq⟩ |
    ⟨t', sc', rest', sc0, k0, hv', hg', hlt, heq⟩ |
    ⟨t', sc', rest', sc0, k0, hv', hg', hlt, hk0, heq⟩
  · rcases hd with hd | ⟨t', sc', rest', sc0, hv', hg', _⟩
    · rw [hv] at hd; simp at hd
    · rw [hv] at hv'
      injection hv' with h1 _
      injection h1 with h2 h3
      subst h2; subst h3
      exact ⟨sc0, hg'⟩
  · rw [heq] at h
    injection h with _ h2
    simp at h2
  · rw [heq] at h
    injection h with _ h2
    simp at h2
  · rw [heq] at h
    injection h with _ h2
    simp at h2

theorem headWriteOf_eq_some {p : Nat × List Cand} {w : Int × Int}
    (h : headWriteOf p = some w) :
    ∃ t sc r pos, p.2 = (t, sc) :: r ∧ parseAnswerPos t = some pos ∧
      w = (pos - 1, (p.1 : Int)) := by
  obtain ⟨k, l⟩ := p
  cases l with
  | nil => simp [headWriteOf] at h
  | cons c r =>
    obtain ⟨t, sc⟩ := c
    cases hp : parseAnswerPos t with
    | none => simp [headWriteOf, hp] at h
    | some pos =>
      simp only [headWriteOf, hp, Option.map_some', Option.some.injEq] at h
      exact ⟨t, sc, r, pos, rfl, hp, h.symm⟩

/-- At the fixed point every still-live head text is granted to its own
choice, so the writes of the final output loop hit pairwise-distinct
blanks and carry pairwise-distinct choice indices. -/
theorem headWrites_pairwise (g : List (String × ℚ × Nat)) :
    ∀ vs : List (Nat × List Cand),
      (vs.map Prod.fst).Nodup →
      (∀ p ∈ vs, ∀ c ∈ p.2, c.1 ∈ markerStrings) →
      (∀ k l t sc r, (k, l) ∈ vs → l = (t, sc) :: r →
        ∃ sc0, lookupGrant g t = some (sc0, k)) →
      List.Pairwise (fun a b => a.1 ≠ b.1 ∧ a.2 ≠ b.2) (vs.filterMap headWriteOf) := by
  intro vs
  induction vs with
  | nil => intro _ _ _; simp
  | cons p rest ih =>
    intro hnd hmk hgr
    simp only [List.map_cons, List.nodup_cons] at hnd
    have ih' := ih hnd.2 (fun q hq => hmk q (List.mem_cons_of_mem p hq))
      (fun k l t sc r hm hl => hgr k l t sc r (List.mem_cons_of_mem p hm) hl)
    cases hw : headWriteOf p with
    | none => rw [List.filterMap_cons_none hw]; exact ih'
    | some w =>
      rw [List.filterMap_cons_some hw]
      refine List.Pairwise.cons ?_ ih'
      intro w' hw'
      obtain ⟨q, hq, hq2⟩ := List.mem_filterMap.1 hw'
      obtain ⟨t, sc, r, pos, hp2, hparse, hwv⟩ := headWriteOf_eq_some hw
      obtain ⟨t', sc', r', pos', hq2', hparse', hwv'⟩ := headWriteOf_eq_some hq2
      have hkne : p.1 ≠ q.1 := by
        intro h
        exact hnd.1 (h ▸ List.mem_map.2 ⟨q, hq, rfl⟩)
      obtain ⟨sc0, hg1⟩ := hgr p.1 p.2 t sc r (List.mem_cons_self p rest) hp2
      obtain ⟨sc0', hg2⟩ :=
        hgr q.1 q.2 t' sc' r' (List.mem_cons_of_mem p hq) hq2'
      have htne : t ≠ t' := by
        intro h
        subst h
        rw [hg1] at hg2
        injection hg2 with h2
        injection h2 with _ h3
        exact hkne h3
      have hm1 : t ∈ markerStrings := by
        have := hmk p (List.mem_cons_self p rest) (t, sc) (by rw [hp2]; exact List.mem_cons_self _ _)
        exact this
      have hm2 : t' ∈ markerStrings := by
        have := hmk q (List.mem_cons_of_mem p hq) (t', sc')
          (by rw [hq2']; exact List.mem_cons_self _ _)
        exact this
      have hpne : pos ≠ pos' := by
        intro h
        exact htne (parse_inj_markers t hm1 t' hm2 (by rw [hparse, hparse', h]))
      constructor
      · rw [hwv, hwv']
        simp only
        omega
      · rw [hwv, hwv']
        simp only
        intro h
        exact hkne (by exact_mod_cast h)

theorem textsOf_length (vs : List (Nat × List Cand)) :
    (textsOf vs).length = sumLen vs := by
  induction vs with
  | nil => rfl
  | cons p rest ih =>
    simp only [textsOf, sumLen, List.map_cons, List.flatten_cons, List.length_append,
      List.length_map, List.sum_cons] at *
    omega

theorem mu_init_le (input : List (Nat × List Cand)) :
    mu { vals := input, grants := [] } ≤ 2 * sumLen input := by
  unfold mu
  simp only
  have h1 := List.length_filter_le
    (fun t => (lookupGrant ([] : List (String × ℚ × Nat)) t).isNone)
    ((textsOf input).dedup)
  have h2 := (List.dedup_sublist (textsOf input)).length_le
  have h3 := textsOf_length input
  omega

/-! # Claim theorems -/

/-- Claim C1: on the spec's concrete scenario (three choices with
candidate lists `c0 = [(u1,0.9),(u2,0.1)]`, `c1 = [(u1,0.95),(u3,0.2)]`,
`c2 = [(u2,0.8),(u1,0.3)]` over blanks `unused1..unused3`, iterated in
ascending choice order) the conflict-resolution loop converges with
blank 1 assigned to choice 1, blank 2 assigned to choice 2, blank 3
unresolved (`-1`), and choice 0's candidate list exhausted, so choice 0
is assigned to no blank. -/
theorem concrete_scenario_assignment :
    write_predictions_doc 3 c1input = [1, 2, -1] ∧
    lookupVal (auctionResult c1input).vals 0 = [] ∧
    (1 : Int) ∉ [(0 : Int)] ∧ (0 : Int) ∉ write_predictions_doc 3 c1input := by
  decide

/-- Claim C2 (amended): for every finite per-choice candidate-list input
the `while True` auction loop terminates: it reaches a pass that reports
`is_update = False` (and such a pass leaves the state unchanged, which
exits the loop) after at most `2 * (sum of all candidate-list lengths) + 1`
passes.  (As stated the claim is false: a non-converged pass need not
shrink any list - a pass that only installs fresh grants reports an
update while every candidate list keeps its length - see the
counterexample.) -/
theorem auction_loop_reaches_fixed_point (input : List (Nat × List Cand)) :
    ∃ n, n ≤ 2 * sumLen input + 1 ∧
      runPass (input.map Prod.fst)
          (auctionN n (input.map Prod.fst) { vals := input, grants := [] }) =
        (auctionN n (input.map Prod.fst) { vals := input, grants := [] }, false) := by
  refine ⟨mu { vals := input, grants := [] } + 1, by have := mu_init_le input; omega, ?_⟩
  exact auctionN_fix _ _ _ (initial_consistent input) (Nat.lt_succ_self _)

/-- Counterexample to claim C2 as stated: with the single choice 0
holding the single candidate `([unused1], 1)`, the first pass reports
`is_update = True` (it is not the terminating pass) yet discards nothing:
every choice's remaining-candidate list is unchanged, so no list strictly
shrinks. -/
theorem auction_pass_no_shrink_counterexample :
    (runPass [0] { vals := c2input, grants := [] }).2 = true ∧
    (runPass [0] { vals := c2input, grants := [] }).1.vals = c2input ∧
    sumLen (runPass [0] { vals := c2input, grants := [] }).1.vals = sumLen c2input := by
  decide

/-- Claim C3: when a choice `key` proposes a text `t` currently granted
to a different choice `k0` with exactly equal score, the incumbent keeps
the grant (the grant table is unchanged) and the challenger's head
candidate is discarded (popped from the front of its list). -/
theorem tie_favors_incumbent (s : AuctionState) (key k0 : Nat) (t : String)
    (sc : ℚ) (rest : List Cand)
    (hv : lookupVal s.vals key = (t, sc) :: rest)
    (hg : lookupGrant s.grants t = some (sc, k0))
    (hne : k0 ≠ key) :
    stepKey s key = ({ s with vals := popVal s.vals key }, true) ∧
    (stepKey s key).1.grants = s.grants ∧
    lookupGrant (stepKey s key).1.grants t = some (sc, k0) ∧
    lookupVal (stepKey s key).1.vals key = rest := by
  have heq : stepKey s key = ({ s with vals := popVal s.vals key }, true) := by
    simp [stepKey, hv, hg, lt_irrefl, hne]
  refine ⟨heq, by rw [heq], by rw [heq]; exact hg, ?_⟩
  rw [heq]
  simp only
  rw [lookupVal_popVal, if_pos rfl, hv]
  rfl

theorem tie_favors_incumbent_witness :
    (lookupVal tieState.vals 1 = [("[unused1]", mkRat 1 2)] ∧
      lookupGrant tieState.grants "[unused1]" = some (mkRat 1 2, 0) ∧
      (0 : Nat) ≠ 1) ∧
    (stepKey tieState 1 = ({ tieState with vals := popVal tieState.vals 1 }, true) ∧
      (stepKey tieState 1).1.grants = tieState.grants ∧
      lookupGrant (stepKey tieState 1).1.grants "[unused1]" = some (mkRat 1 2, 0) ∧
      lookupVal (stepKey tieState 1).1.vals 1 = []) :=
  ⟨⟨by decide, by decide, by decide⟩,
    tie_favors_incumbent tieState 1 0 "[unused1]" (mkRat 1 2) []
      (by decide) (by decide) (by decide)⟩

/-- Claim C4: for every per-document candidate input (with the choices'
keys distinct, as dict keys are, and candidate texts drawn from the
reserved blank markers), the writes of the final output loop hit each
blank slot at most once and write each choice into at most one slot, and
recomputing the output from the same frozen candidate lists yields the
identical result. -/
theorem assignment_no_double_booking (B : Nat) (input : List (Nat × List Cand))
    (hnd : (input.map Prod.fst).Nodup)
    (hmk : ∀ p ∈ input, ∀ c ∈ p.2, c.1 ∈ markerStrings) :
    ((headWrites (auctionResult input)).map Prod.fst).Nodup ∧
    ((headWrites (auctionResult input)).map Prod.snd).Nodup ∧
    write_predictions_doc B input = write_predictions_doc B input := by
  have hkeys : (auctionResult input).vals.map Prod.fst = input.map Prod.fst :=
    auctionN_map_fst _ _ _
  have hnd' : ((auctionResult input).vals.map Prod.fst).Nodup := by
    rw [hkeys]; exact hnd
  have hle : ValsLe (auctionResult input).vals input :=
    auctionN_valsLe _ _ _
  have hmk' : ∀ p ∈ (auctionResult input).vals, ∀ c ∈ p.2, c.1 ∈ markerStrings := by
    intro p hp c hc
    obtain ⟨q, hq, _, h2⟩ := valsLe_mem hle hp
    exact hmk q hq c (h2.subset hc)
  have hfixp : runPass (input.map Prod.fst) (auctionResult input) =
      (auctionResult input, false) :=
    auction_fix (input.map Prod.fst) { vals := input, grants := [] }
      (initial_consistent input)
  have hflag : (runPass (input.map Prod.fst) (auctionResult input)).2 = false := by
    rw [hfixp]
  have hsteps :=
    (runPassAux_false (input.map Prod.fst) (auctionResult input) false hflag).2.2
  have hgr : ∀ k l t sc r, (k, l) ∈ (auctionResult input).vals →
      l = (t, sc) :: r →
      ∃ sc0, lookupGrant (auctionResult input).grants t = some (sc0, k) := by
    intro k l t sc r hm hl
    have hkmem : k ∈ input.map Prod.fst := by
      rw [← hkeys]; exact List.mem_map.2 ⟨(k, l), hm, rfl⟩
    have hlk : lookupVal (auctionResult input).vals k = l :=
      lookupVal_eq_of_mem _ k l hnd' hm
    exact fixpoint_head_grant _ _ hsteps k t sc r hkmem (by rw [hlk, hl])
  have hpw := headWrites_pairwise (auctionResult input).grants
    (auctionResult input).vals hnd' hmk' hgr
  exact ⟨List.pairwise_map.2 (hpw.imp (fun h => h.1)),
    List.pairwise_map.2 (hpw.imp (fun h => h.2)), rfl⟩

theorem assignment_no_double_booking_witness :
    ((c1input.map Prod.fst).Nodup ∧
      ∀ p ∈ c1input, ∀ c ∈ p.2, c.1 ∈ markerStrings) ∧
    (((headWrites (auctionResult c1input)).map Prod.fst).Nodup ∧
      ((headWrites (auctionResult c1input)).map Prod.snd).Nodup ∧
      write_predictions_doc 3 c1input = write_predictions_doc 3 c1input) :=
  ⟨⟨by decide, by decide⟩,
    assignment_no_double_booking 3 c1input (by decide) (by decide)⟩

/-! ## Claim C10: empty candidate pools -/

theorem headWrites_nil_of_unparsable (s : AuctionState)
    (input : List (Nat × List Cand)) (hle : ValsLe s.vals input)
    (h : ∀ p ∈ input, ∀ c ∈ p.2, parseAnswerPos c.1 = none) :
    headWrites s = [] := by
  unfold headWrites
  rw [List.filterMap_eq_nil_iff]
  intro p hp
  obtain ⟨q, hq, _, h2⟩ := valsLe_mem hle hp
  obtain ⟨k, l⟩ := p
  cases hl : l with
  | nil => simp [headWriteOf]
  | cons c r =>
    have hc : c ∈ q.2 := h2.subset (by rw [hl]; exact List.mem_cons_self _ _)
    have := h q hq c hc
    obtain ⟨t, sc⟩ := c
    simp only at this
    simp [headWriteOf, this]

/-- Claim C10: an example with an entirely empty preliminary-prediction
pool gets exactly one placeholder n-best entry `("empty", 0.0)` (and the
n-best list is never empty); and a document all of whose choices carry
only the placeholder text ends with every blank unresolved (`-1`),
whatever the placeholder scores are. -/
theorem empty_pool_placeholder (n_best_size B : Nat) (preds : List (String × ℚ))
    (ks : List Nat) (probs : Nat → ℚ) :
    buildNbest n_best_size [] = [("empty", 0)] ∧
    buildNbest n_best_size preds ≠ [] ∧
    write_predictions_doc B (ks.map (fun k => (k, [("empty", probs k)]))) =
      List.replicate B (-1) := by
  refine ⟨rfl, ?_, ?_⟩
  · intro hc
    unfold buildNbest at hc
    by_cases h : (nbestAux n_best_size preds []).isEmpty
    · rw [if_pos h] at hc
      exact absurd hc (by simp)
    · rw [if_neg h] at hc
      rw [hc] at h
      exact h rfl
  · unfold write_predictions_doc finalOutput
    rw [headWrites_nil_of_unparsable (auctionResult _)
      (ks.map (fun k => (k, [("empty", probs k)]))) (auctionN_valsLe _ _ _) ?_]
    · rfl
    · intro p hp c hc
      obtain ⟨k, _, hk2⟩ := List.mem_map.1 hp
      subst hk2
      simp only at hc
      rcases List.mem_cons.1 hc with hc' | hc'
      · subst hc'
        show parseAnswerPos "empty" = none
        decide
      · simp at hc'

theorem empty_pool_placeholder_witness :
    buildNbest 20 [] = [("empty", 0)] ∧
    buildNbest 20 [("a", mkRat 1 2)] ≠ [] ∧
    write_predictions_doc 2 ([5].map (fun k => (k, [("empty", (fun _ => mkRat 1 1) k)]))) =
      List.replicate 2 (-1) :=
  empty_pool_placeholder 20 2 [("a", mkRat 1 2)] [5] (fun _ => mkRat 1 1)

/-! ## Claim C5: sliding-window generation -/

theorem docSpansAux_spec (L C S : Nat) (hS : 1 ≤ S) (hC : 1 ≤ C) :
    ∀ fuel start, start < L → L - start ≤ fuel →
      ∃ spans, docSpansAux L C S fuel start = some spans ∧
        spans ≠ [] ∧
        (∀ sp ∈ spans, start ≤ sp.start ∧ sp.start < L ∧
          sp.length = min C (L - sp.start)) ∧
        (∀ p, start ≤ p → p < L →
          ∃ sp ∈ spans, sp.start ≤ p ∧ p < sp.start + sp.length) ∧
        (∃ last, spans.getLast? = some last ∧ last.start + last.length = L) := by
  intro fuel
  induction fuel with
  | zero => intro start h1 h2; omega
  | succ n ih =>
    intro start hstart hfuel
    have hlen2 : (if C < L - start then C else L - start) = min C (L - start) := by
      split <;> omega
    have hunf : docSpansAux L C S (n + 1) start =
        (if start + min C (L - start) = L then
          some [⟨start, min C (L - start)⟩]
        else
          (docSpansAux L C S n (start + min (min C (L - start)) S)).map
            (⟨start, min C (L - start)⟩ :: ·)) := by
      simp only [docSpansAux, if_pos hstart]
      rw [hlen2]
    have hmin1 : 1 ≤ min C (L - start) := by omega
    by_cases hbreak : start + min C (L - start) = L
    · rw [if_pos hbreak] at hunf
      refine ⟨[⟨start, min C (L - start)⟩], hunf, by simp, ?_, ?_, ?_⟩
      · intro sp hsp
        rcases List.mem_cons.1 hsp with rfl | hsp
        · exact ⟨le_refl _, hstart, rfl⟩
        · simp at hsp
      · intro p hp1 hp2
        refine ⟨⟨start, min C (L - start)⟩, List.mem_cons_self _ _, hp1, ?_⟩
        show p < start + min C (L - start)
        omega
      · exact ⟨⟨start, min C (L - start)⟩, rfl, hbreak⟩
    · rw [if_neg hbreak] at hunf
      have hminS : 1 ≤ min (min C (L - start)) S := by omega
      have hstart' : start + min (min C (L - start)) S < L := by omega
      have hfuel' : L - (start + min (min C (L - start)) S) ≤ n := by omega
      obtain ⟨rest, hres, hne, hall, hcov, hlast⟩ := ih _ hstart' hfuel'
      rw [hres] at hunf
      refine ⟨⟨start, min C (L - start)⟩ :: rest, by rw [hunf]; rfl, by simp, ?_, ?_, ?_⟩
      · intro sp hsp
        rcases List.mem_cons.1 hsp with rfl | hsp
        · exact ⟨le_refl _, hstart, rfl⟩
        · obtain ⟨ha, hb, hc⟩ := hall sp hsp
          exact ⟨by omega, hb, hc⟩
      · intro p hp1 hp2
        by_cases hcase : p < start + min C (L - start)
        · exact ⟨⟨start, min C (L - start)⟩, List.mem_cons_self _ _, hp1, hcase⟩
        · obtain ⟨sp, hsp, hsp2⟩ := hcov p (by omega) hp2
          exact ⟨sp, List.mem_cons_of_mem _ hsp, hsp2⟩
      · obtain ⟨last, hl1, hl2⟩ := hlast
        refine ⟨last, ?_, hl2⟩
        cases rest with
        | nil => exact absurd rfl hne
        | cons a as => rw [List.getLast?_cons_cons]; exact hl1

/-- Every generated span fits the capacity, and only the final span may
be shorter than the capacity (needed for the max-context tie-break). -/
theorem docSpansAux_struct (L C S : Nat) :
    ∀ fuel start spans, docSpansAux L C S fuel start = some spans →
      (∀ sp ∈ spans, sp.length ≤ C) ∧
      (∀ j sp, spans.get? j = some sp → sp.length ≠ C → j + 1 = spans.length) := by
  intro fuel
  induction fuel with
  | zero => intro start spans h; simp [docSpansAux] at h
  | succ n ih =>
    intro start spans h
    by_cases hstart : start < L
    · simp only [docSpansAux, if_pos hstart] at h
      by_cases hbreak : start + (if C < L - start then C else L - start) = L
      · rw [if_pos hbreak] at h
        injection h with h
        subst h
        constructor
        · intro sp hsp
          rcases List.mem_cons.1 hsp with rfl | hsp
          · show (if C < L - start then C else L - start) ≤ C
            split <;> omega
          · simp at hsp
        · intro j sp hj _
          cases j with
          | zero => rfl
          | succ m => simp at hj
      · rw [if_neg hbreak] at h
        cases hrec : docSpansAux L C S n (start + min (if C < L - start then C else L - start) S) with
        | none => rw [hrec] at h; simp at h
        | some rest =>
          rw [hrec] at h
          simp only [Option.map_some', Option.some.injEq] at h
          subst h
          have hheadC : (if C < L - start then C else L - start) = C := by
            by_cases hcl : C < L - start
            · rw [if_pos hcl]
            · rw [if_neg hcl] at hbreak ⊢
              omega
          obtain ⟨ihA, ihB⟩ := ih _ rest hrec
          constructor
          · intro sp hsp
            rcases List.mem_cons.1 hsp with rfl | hsp
            · show (if C < L - start then C else L - start) ≤ C
              omega
            · exact ihA sp hsp
          · intro j sp hj hlen
            cases j with
            | zero =>
              simp only [List.get?_cons_zero, Option.some.injEq] at hj
              subst hj
              have hlen' : (if C < L - start then C else L - start) ≠ C := hlen
              omega
            | succ m =>
              simp only [List.get?_cons_succ] at hj
              have := ihB m sp hj hlen
              simp only [List.length_cons]
              omega
    · simp only [docSpansAux, if_neg hstart] at h
      injection h with h
      subst h
      exact ⟨by simp, by intro j sp hj; simp at hj⟩

/-- With stride 0 and a document longer than the capacity, the generation
loop never terminates, whatever the pass budget: `doc_stride = 0` makes
`start_offset += min(length, doc_stride)` a no-op. -/
theorem docSpansAux_zero_stride (fuel : Nat) :
    docSpansAux 2 1 0 fuel 0 = none := by
  induction fuel with
  | zero => rfl
  | succ n ih => simp [docSpansAux, ih]

/-- Claim C5 (amended, stride at least 1): for `1 ≤ S`, `S < C ≤ L` the
generated doc spans each take `min(C, L - offset)` tokens from their
start offset, their `[start, end]` ranges cover every index of
`[0, L-1]` with no gaps, and the last span's end is exactly `L - 1`. -/
theorem doc_spans_full_coverage (L C S : Nat) (hS : 1 ≤ S) (hSC : S < C)
    (hCL : C ≤ L) :
    ∃ spans, docSpans L C S = some spans ∧
      (∀ sp ∈ spans, sp.length = min C (L - sp.start)) ∧
      (∀ p, p < L → ∃ sp ∈ spans, sp.start ≤ p ∧ p ≤ sp.start + sp.length - 1) ∧
      (∃ last, spans.getLast? = some last ∧
        last.start + last.length - 1 = L - 1) := by
  have hC : 1 ≤ C := by omega
  have hL : 0 < L := by omega
  obtain ⟨spans, h1, _, hall, hcov, hlast⟩ :=
    docSpansAux_spec L C S hS hC (L + 1) 0 hL (by omega)
  refine ⟨spans, h1, fun sp hsp => (hall sp hsp).2.2, ?_, ?_⟩
  · intro p hp
    obtain ⟨sp, hsp, hs1, hs2⟩ := hcov p (Nat.zero_le _) hp
    exact ⟨sp, hsp, hs1, by omega⟩
  · obtain ⟨last, hl1, hl2⟩ := hlast
    exact ⟨last, hl1, by omega⟩

theorem doc_spans_full_coverage_witness :
    (1 ≤ 1 ∧ 1 < 3 ∧ 3 ≤ 5) ∧
    (∃ spans, docSpans 5 3 1 = some spans ∧
      (∀ sp ∈ spans, sp.length = min 3 (5 - sp.start)) ∧
      (∀ p, p < 5 → ∃ sp ∈ spans, sp.start ≤ p ∧ p ≤ sp.start + sp.length - 1) ∧
      (∃ last, spans.getLast? = some last ∧
        last.start + last.length - 1 = 5 - 1)) :=
  ⟨⟨by decide, by decide, by decide⟩,
    doc_spans_full_coverage 5 3 1 (by decide) (by decide) (by decide)⟩

/-- Counterexample to claim C5 as stated: the stride `S = 0` satisfies
`S < C ≤ L` at `C = 1`, `L = 2`, yet no covering span list is produced -
the generation loop diverges (see `docSpansAux_zero_stride`: the result
is `none` for every pass budget, so in particular for the canonical one),
so the claimed coverage and final-span properties fail. -/
theorem doc_spans_zero_stride_counterexample :
    (0 < 1 ∧ 1 ≤ 2) ∧ docSpans 2 1 0 = none :=
  ⟨⟨by decide, by decide⟩, docSpansAux_zero_stride 3⟩

/-! ## Claim C6: `_check_is_max_context` -/

theorem bestStep_not_contains (p : Nat) (best : Option (ℚ × Nat)) (n : Nat)
    (sp : DocSpan) (hc : containsPos sp p = false) :
    bestStep p best n sp = best := by
  simp [bestStep, hc]

theorem bestStep_none_contains (p n : Nat) (sp : DocSpan)
    (hc : containsPos sp p = true) :
    bestStep p none n sp = some (spanScore sp p, n) := by
  simp [bestStep, hc]

theorem bestStep_some_contains (p : Nat) (bs : ℚ) (bi n : Nat) (sp : DocSpan)
    (hc : containsPos sp p = true) :
    bestStep p (some (bs, bi)) n sp =
      if bs < spanScore sp p then some (spanScore sp p, n) else some (bs, bi) := by
  simp [bestStep, hc]

theorem bestSpanAux_none (p : Nat) :
    ∀ (spans : List DocSpan) (n : Nat) (acc : Option (ℚ × Nat)),
      bestSpanAux p spans n acc = none ↔
        acc = none ∧ ∀ sp ∈ spans, containsPos sp p = false := by
  intro spans
  induction spans with
  | nil =>
    intro n acc
    simp [bestSpanAux]
  | cons sp rest ih =>
    intro n acc
    rw [bestSpanAux]
    by_cases hc : containsPos sp p = true
    · have hv : ∃ v, bestStep p acc n sp = some v := by
        cases acc with
        | none => exact ⟨_, bestStep_none_contains p n sp hc⟩
        | some b =>
          obtain ⟨bs, bi⟩ := b
          rw [bestStep_some_contains p bs bi n sp hc]
          by_cases hlt : bs < spanScore sp p
          · rw [if_pos hlt]; exact ⟨_, rfl⟩
          · rw [if_neg hlt]; exact ⟨_, rfl⟩
      obtain ⟨v, hv⟩ := hv
      rw [hv, ih]
      constructor
      · rintro ⟨h1, _⟩
        simp at h1
      · rintro ⟨_, hall⟩
        have := hall sp (List.mem_cons_self _ _)
        rw [hc] at this
        simp at this
    · rw [bestStep_not_contains p acc n sp (by simpa using hc), ih]
      constructor
      · rintro ⟨h1, h2⟩
        refine ⟨h1, ?_⟩
        intro sp' hsp'
        rcases List.mem_cons.1 hsp' with rfl | hsp'
        · simpa using hc
        · exact h2 sp' hsp'
      · rintro ⟨h1, h2⟩
        exact ⟨h1, fun sp' hsp' => h2 sp' (List.mem_cons_of_mem _ hsp')⟩

theorem bestSpanAux_mem (p : Nat) :
    ∀ (spans : List DocSpan) (n : Nat) (acc : Option (ℚ × Nat)) (s : ℚ) (i : Nat),
      bestSpanAux p spans n acc = some (s, i) →
      acc = some (s, i) ∨
        ∃ j sp, spans.get? j = some sp ∧ i = n + j ∧ containsPos sp p = true ∧
          spanScore sp p = s := by
  intro spans
  induction spans with
  | nil => intro n acc s i h; exact Or.inl h
  | cons sp rest ih =>
    intro n acc s i h
    rw [bestSpanAux] at h
    rcases ih (n + 1) _ s i h with hacc | ⟨j, sp', hj, hi, hc', hs'⟩
    · by_cases hc : containsPos sp p = true
      · cases acc with
        | none =>
          rw [bestStep_none_contains p n sp hc] at hacc
          injection hacc with h1
          injection h1 with h2 h3
          exact Or.inr ⟨0, sp, rfl, by omega, hc, h2⟩
        | some b =>
          obtain ⟨bs, bi⟩ := b
          rw [bestStep_some_contains p bs bi n sp hc] at hacc
          by_cases hlt : bs < spanScore sp p
          · rw [if_pos hlt] at hacc
            injection hacc with h1
            injection h1 with h2 h3
            exact Or.inr ⟨0, sp, rfl, by omega, hc, h2⟩
          · rw [if_neg hlt] at hacc
            exact Or.inl hacc
      · rw [bestStep_not_contains p acc n sp (by simpa using hc)] at hacc
        exact Or.inl hacc
    · exact Or.inr ⟨j + 1, sp', by rw [List.get?_cons_succ]; exact hj, by omega, hc', hs'⟩

theorem bestSpanAux_ub (p : Nat) :
    ∀ (spans : List DocSpan) (n : Nat) (acc : Option (ℚ × Nat)) (s : ℚ) (i : Nat),
      bestSpanAux p spans n acc = some (s, i) →
      (∀ bs bi, acc = some (bs, bi) → bs ≤ s) ∧
      (∀ sp ∈ spans, containsPos sp p = true → spanScore sp p ≤ s) := by
  intro spans
  induction spans with
  | nil =>
    intro n acc s i h
    refine ⟨?_, by simp⟩
    intro bs bi hacc
    rw [hacc] at h
    injection h with h1
    injection h1 with h2 _
    rw [h2]
  | cons sp rest ih =>
    intro n acc s i h
    rw [bestSpanAux] at h
    obtain ⟨hacc', hrest⟩ := ih (n + 1) _ s i h
    constructor
    · intro bs bi hacc
      subst hacc
      by_cases hc : containsPos sp p = true
      · by_cases hlt : bs < spanScore sp p
        · have := hacc' (spanScore sp p) n
            (by rw [bestStep_some_contains p bs bi n sp hc, if_pos hlt])
          exact le_trans (le_of_lt hlt) this
        · exact hacc' bs bi
            (by rw [bestStep_some_contains p bs bi n sp hc, if_neg hlt])
      · exact hacc' bs bi (by rw [bestStep_not_contains p _ n sp (by simpa using hc)])
    · intro sp' hsp' hc'
      rcases List.mem_cons.1 hsp' with rfl | hsp'
      · cases acc with
        | none => exact hacc' _ _ (bestStep_none_contains p n sp' hc')
        | some b =>
          obtain ⟨bs, bi⟩ := b
          by_cases hlt : bs < spanScore sp' p
          · exact hacc' _ _
              (by rw [bestStep_some_contains p bs bi n sp' hc', if_pos hlt])
          · have h1 := hacc' bs bi
              (by rw [bestStep_some_contains p bs bi n sp' hc', if_neg hlt])
            exact le_trans (not_lt.1 hlt) h1
      · exact hrest sp' hsp' hc'

theorem bestSpanAux_acc (p : Nat) :
    ∀ (spans : List DocSpan) (n : Nat) (acc : Option (ℚ × Nat)) (s : ℚ)
      (i : Nat) (bs : ℚ) (bi : Nat),
      bestSpanAux p spans n acc = some (s, i) → acc = some (bs, bi) →
      (s = bs ∧ i = bi) ∨ bs < s := by
  intro spans
  induction spans with
  | nil =>
    intro n acc s i bs bi h hacc
    rw [hacc] at h
    injection h with h1
    injection h1 with h2 h3
    exact Or.inl ⟨h2.symm, h3.symm⟩
  | cons sp rest ih =>
    intro n acc s i bs bi h hacc
    subst hacc
    rw [bestSpanAux] at h
    by_cases hc : containsPos sp p = true
    · by_cases hlt : bs < spanScore sp p
      · have := ih (n + 1) _ s i (spanScore sp p) n h
          (by rw [bestStep_some_contains p bs bi n sp hc, if_pos hlt])
        rcases this with ⟨h1, _⟩ | h1
        · exact Or.inr (by rw [h1]; exact hlt)
        · exact Or.inr (lt_trans hlt h1)
      · exact ih (n + 1) _ s i bs bi h
          (by rw [bestStep_some_contains p bs bi n sp hc, if_neg hlt])
    · exact ih (n + 1) _ s i bs bi h
        (by rw [bestStep_not_contains p _ n sp (by simpa using hc)])

theorem bestSpanAux_first (p : Nat) :
    ∀ (spans : List DocSpan) (n : Nat) (acc : Option (ℚ × Nat)) (s : ℚ) (i : Nat),
      bestSpanAux p spans n acc = some (s, i) →
      (∀ bs bi, acc = some (bs, bi) → bi < n) →
      ∀ j sp, spans.get? j = some sp → n + j < i → containsPos sp p = true →
        spanScore sp p < s := by
  intro spans
  induction spans with
  | nil =>
    intro n acc s i h hacc j sp hj
    simp at hj
  | cons sp0 rest ih =>
    intro n acc s i h hacc j sp hj hlt hc
    rw [bestSpanAux] at h
    cases j with
    | zero =>
      rw [List.get?_cons_zero] at hj
      injection hj with hj
      subst hj
      cases acc with
      | none =>
        have := bestSpanAux_acc p rest (n + 1) _ s i (spanScore sp0 p) n h
          (bestStep_none_contains p n sp0 hc)
        rcases this with ⟨_, h2⟩ | h1
        · omega
        · exact h1
      | some b =>
        obtain ⟨bs, bi⟩ := b
        by_cases hblt : bs < spanScore sp0 p
        · have := bestSpanAux_acc p rest (n + 1) _ s i (spanScore sp0 p) n h
            (by rw [bestStep_some_contains p bs bi n sp0 hc, if_pos hblt])
          rcases this with ⟨_, h2⟩ | h1
          · omega
          · exact h1
        · have hbi : bi < n := hacc bs bi rfl
          have := bestSpanAux_acc p rest (n + 1) _ s i bs bi h
            (by rw [bestStep_some_contains p bs bi n sp0 hc, if_neg hblt])
          rcases this with ⟨_, h2⟩ | h1
          · omega
          · exact lt_of_le_of_lt (not_lt.1 hblt) h1
    | succ m =>
      rw [List.get?_cons_succ] at hj
      refine ih (n + 1) _ s i h ?_ m sp hj (by omega) hc
      intro bs bi hstep
      by_cases hc0 : containsPos sp0 p = true
      · cases acc with
        | none =>
          rw [bestStep_none_contains p n sp0 hc0] at hstep
          injection hstep with h1
          injection h1 with _ h2
          omega
        | some b =>
          obtain ⟨bs0, bi0⟩ := b
          rw [bestStep_some_contains p bs0 bi0 n sp0 hc0] at hstep
          by_cases hblt : bs0 < spanScore sp0 p
          · rw [if_pos hblt] at hstep
            injection hstep with h1
            injection h1 with _ h2
            omega
          · rw [if_neg hblt] at hstep
            injection hstep with h1
            injection h1 with _ h2
            have := hacc bs0 bi0 rfl
            omega
      · rw [bestStep_not_contains p acc n sp0 (by simpa using hc0)] at hstep
        have := hacc bs bi hstep
        omega

/-- Claim C6: for every generated doc-span list and every position `p`
contained in at least one span, `_check_is_max_context` is true for
exactly one span index; that span contains `p`, maximizes
`min(p - start, end - p) + 0.01 * length` among the containing spans,
and among exact score ties it is at least as long as any tying span
(the first maximizer wins, and only the final generated span can be
shorter than the full capacity). -/
theorem max_context_owner_unique (L C S : Nat) (spans : List DocSpan) (p : Nat)
    (hgen : docSpans L C S = some spans)
    (hp : ∃ sp ∈ spans, containsPos sp p = true) :
    ∃ i sp, spans.get? i = some sp ∧ containsPos sp p = true ∧
      check_is_max_context spans i p = true ∧
      (∀ j, check_is_max_context spans j p = true → j = i) ∧
      (∀ j spj, spans.get? j = some spj → containsPos spj p = true →
        spanScore spj p ≤ spanScore sp p) ∧
      (∀ j spj, spans.get? j = some spj → containsPos spj p = true →
        spanScore spj p = spanScore sp p → spj.length ≤ sp.length) := by
  obtain ⟨sp0, hsp0, hc0⟩ := hp
  cases hbest : bestSpanPair spans p with
  | none =>
    rw [bestSpanPair, bestSpanAux_none] at hbest
    have := hbest.2 sp0 hsp0
    rw [hc0] at this
    simp at this
  | some b =>
    obtain ⟨s, i⟩ := b
    have hstruct := docSpansAux_struct L C S (L + 1) 0 spans hgen
    have hmem := bestSpanAux_mem p spans 0 none s i hbest
    rcases hmem with hacc | ⟨j, spi, hj, hi, hci, hsi⟩
    · simp at hacc
    have hij : i = j := by omega
    subst hij
    refine ⟨i, spi, hj, hci, ?_, ?_, ?_, ?_⟩
    · rw [check_is_max_context]
      rw [show bestSpanPair spans p = some (s, i) from hbest]
      simp
    · intro j' hch
      rw [check_is_max_context] at hch
      rw [show bestSpanPair spans p = some (s, i) from hbest] at hch
      simpa using hch
    · intro j' spj hj' hc'
      have := (bestSpanAux_ub p spans 0 none s i hbest).2 spj (List.get?_mem hj') hc'
      rw [hsi]
      exact this
    · intro j' spj hj' hc' heq
      by_contra hlen
      push_neg at hlen
      have hleC := hstruct.1 spj (List.get?_mem hj')
      have hneC : spi.length ≠ C := by omega
      have hlast : i + 1 = spans.length := hstruct.2 i spi hj hneC
      have hige : i ≤ j' := by
        by_contra hltj
        have := bestSpanAux_first p spans 0 none s i hbest (by intro bs bi h; simp at h)
          j' spj hj' (by omega) hc'
        rw [heq, hsi] at this
        exact lt_irrefl s this
      rcases Nat.lt_or_ge i j' with hcase | hcase
      · have : spans.length ≤ j' := by omega
        rw [List.get?_eq_none.2 this] at hj'
        simp at hj'
      · have hji : j' = i := by omega
        subst hji
        rw [hj] at hj'
        injection hj' with hj'
        subst hj'
        omega

theorem max_context_owner_unique_witness :
    (docSpans 5 3 1 = some [⟨0, 3⟩, ⟨1, 3⟩, ⟨2, 3⟩] ∧
      ∃ sp ∈ [(⟨0, 3⟩ : DocSpan), ⟨1, 3⟩, ⟨2, 3⟩], containsPos sp 2 = true) ∧
    (∃ i sp, [(⟨0, 3⟩ : DocSpan), ⟨1, 3⟩, ⟨2, 3⟩].get? i = some sp ∧
      containsPos sp 2 = true ∧
      check_is_max_context [⟨0, 3⟩, ⟨1, 3⟩, ⟨2, 3⟩] i 2 = true ∧
      (∀ j, check_is_max_context [⟨0, 3⟩, ⟨1, 3⟩, ⟨2, 3⟩] j 2 = true → j = i) ∧
      (∀ j spj, [(⟨0, 3⟩ : DocSpan), ⟨1, 3⟩, ⟨2, 3⟩].get? j = some spj →
        containsPos spj 2 = true → spanScore spj 2 ≤ spanScore sp 2) ∧
      (∀ j spj, [(⟨0, 3⟩ : DocSpan), ⟨1, 3⟩, ⟨2, 3⟩].get? j = some spj →
        containsPos spj 2 = true → spanScore spj 2 = spanScore sp 2 →
        spj.length ≤ sp.length)) :=
  ⟨⟨by decide, by decide⟩,
    max_context_owner_unique 5 3 1 [⟨0, 3⟩, ⟨1, 3⟩, ⟨2, 3⟩] 2 (by decide) (by decide)⟩

/-! ## Claim C7: training-time drop/keep and target position -/

theorem buildDocTokAux_id (subTok : String → List String)
    (hsub : ∀ tk, subTok tk = [tk]) :
    ∀ (toks all : List String) (t2o o2t : List Nat),
      buildDocTokAux subTok toks (all, t2o, o2t) =
        (all ++ toks, t2o ++ List.range' o2t.length toks.length,
          o2t ++ List.range' all.length toks.length) := by
  intro toks
  induction toks with
  | nil => intro all t2o o2t; simp [buildDocTokAux]
  | cons tk rest ih =>
    intro all t2o o2t
    rw [buildDocTokAux]
    have hsubs : (if strContains tk "unused" then [tk] else subTok tk) = [tk] := by
      rw [hsub tk, ite_self]
    simp only [hsubs, List.map_cons, List.map_nil]
    rw [ih]
    simp [List.range'_succ, List.append_assoc, Nat.add_comm]

/-- Claim C7 (amended): for every window, the Feature is dropped exactly
when the word-level gold index `example.position` falls outside the
window's sub-token range `[start, start + length - 1]`; when kept, the
target is `query_length + 2 + (orig_to_tok_index[example.position] -
window.start)` - the drop test and the target use two different
coordinate systems, which coincide whenever the subword tokenizer keeps
every word whole (third conjunct). -/
theorem feature_drop_and_target (queryLen : Nat) (orig_to_tok_index : List Nat)
    (w : Nat) (sp : DocSpan) :
    (featureTarget queryLen orig_to_tok_index w sp = none ↔
      (w < sp.start ∨ sp.start + sp.length - 1 < w)) ∧
    (sp.start ≤ w → w ≤ sp.start + sp.length - 1 →
      featureTarget queryLen orig_to_tok_index w sp =
        some (((orig_to_tok_index.getD w 0 : Nat) : Int) - sp.start + (queryLen + 2))) ∧
    (∀ subTok doc_tokens, (∀ tk, subTok tk = [tk]) →
      (buildDocTok subTok doc_tokens).2.2 = List.range doc_tokens.length) := by
  refine ⟨?_, ?_, ?_⟩
  · unfold featureTarget
    by_cases h : w < sp.start ∨ sp.start + sp.length - 1 < w
    · simp [h]
    · simp [h]
  · intro h1 h2
    unfold featureTarget
    rw [if_neg (by omega)]
  · intro subTok doc_tokens hsub
    unfold buildDocTok
    rw [buildDocTokAux_id subTok hsub]
    simp [List.range_eq_range']

theorem feature_drop_and_target_witness :
    ((⟨1, 2⟩ : DocSpan).start ≤ 2 ∧
      2 ≤ (⟨1, 2⟩ : DocSpan).start + (⟨1, 2⟩ : DocSpan).length - 1) ∧
    (featureTarget 3 [0, 1, 2] 2 ⟨1, 2⟩ = none ↔
      (2 < (⟨1, 2⟩ : DocSpan).start ∨
        (⟨1, 2⟩ : DocSpan).start + (⟨1, 2⟩ : DocSpan).length - 1 < 2)) ∧
    featureTarget 3 [0, 1, 2] 2 ⟨1, 2⟩ =
      some ((([0, 1, 2].getD 2 0 : Nat) : Int) - (⟨1, 2⟩ : DocSpan).start + (3 + 2)) ∧
    (buildDocTok (fun t => [t]) ["x", "y"]).2.2 = List.range ["x", "y"].length :=
  ⟨⟨by decide, by decide⟩,
    (feature_drop_and_target 3 [0, 1, 2] 2 ⟨1, 2⟩).1,
    (feature_drop_and_target 3 [0, 1, 2] 2 ⟨1, 2⟩).2.1 (by decide) (by decide),
    (feature_drop_and_target 3 [0, 1, 2] 2 ⟨1, 2⟩).2.2 (fun t => [t]) ["x", "y"]
      (fun _ => rfl)⟩

/-- Counterexample to claim C7 as stated: with `doc_tokens = ["ab", "c"]`
and a subword tokenizer that splits `"ab"` into two pieces,
`orig_to_tok_index = [0, 2]`.  For `example.position = 1` and the window
`⟨0, 2⟩` (sub-token range `[0, 1]`), the gold blank's document-token
index `orig_to_tok_index[1] = 2` lies outside the window, yet the
feature is kept (the drop test uses the word-level index `1`); and the
kept target is `0 + 2 + (2 - 0) = 4`, not `0 + 2 + (1 - 0) = 3` as the
word-level reading of `gold_index` would demand, so the claim fails
under either reading of "the gold blank's document-token index". -/
theorem feature_drop_mixed_index_counterexample :
    o2tSplit = [0, 2] ∧
    ¬ ((featureTarget 0 o2tSplit 1 ⟨0, 2⟩ = none) ↔
        (o2tSplit.getD 1 0 < (⟨0, 2⟩ : DocSpan).start ∨
          (⟨0, 2⟩ : DocSpan).start + (⟨0, 2⟩ : DocSpan).length - 1 <
            o2tSplit.getD 1 0)) ∧
    featureTarget 0 o2tSplit 1 ⟨0, 2⟩ = some 4 ∧
    featureTarget 0 o2tSplit 1 ⟨0, 2⟩ ≠ some (0 + 2 + ((1 : Int) - 0)) := by
  decide

/-! ## Claim C8: the answer-position mask -/

theorem mask_foldl_length (p : Nat → Bool) (init : List Nat) :
    ∀ n, ((List.range n).foldl
        (fun mask i => if p i then mask.set i 1 else mask) init).length =
      init.length := by
  intro n
  induction n with
  | zero => rfl
  | succ m ih =>
    rw [List.range_succ, List.foldl_append]
    simp only [List.foldl_cons, List.foldl_nil]
    by_cases h : p m = true
    · rw [if_pos h, List.length_set]
      exact ih
    · rw [if_neg h]
      exact ih

theorem mask_foldl_getD (p : Nat → Bool) (init : List Nat) :
    ∀ n, n ≤ init.length → ∀ j, j < init.length →
      ((List.range n).foldl
          (fun mask i => if p i then mask.set i 1 else mask) init).getD j 0 =
        if j < n ∧ p j = true then 1 else init.getD j 0 := by
  intro n
  induction n with
  | zero =>
    intro _ j _
    simp
  | succ m ih =>
    intro hm j hj
    rw [List.range_succ, List.foldl_append]
    simp only [List.foldl_cons, List.foldl_nil]
    have hMlen : ((List.range m).foldl
        (fun mask i => if p i then mask.set i 1 else mask) init).length =
      init.length := mask_foldl_length p init m
    by_cases hpm : p m = true
    · rw [if_pos hpm]
      by_cases hjm : j = m
      · subst hjm
        rw [List.getD_eq_getElem?_getD, List.getElem?_set_self (by omega)]
        rw [if_pos ⟨by omega, hpm⟩]
        rfl
      · rw [List.getD_eq_getElem?_getD, List.getElem?_set_ne (fun h => hjm h.symm),
          ← List.getD_eq_getElem?_getD, ih (by omega) j hj]
        by_cases hc : j < m ∧ p j = true
        · rw [if_pos hc, if_pos ⟨by omega, hc.2⟩]
        · rw [if_neg hc, if_neg (fun hc2 => hc ⟨by omega, hc2.2⟩)]
    · rw [if_neg hpm, ih (by omega) j hj]
      by_cases hc : j < m ∧ p j = true
      · rw [if_pos hc, if_pos ⟨by omega, hc.2⟩]
      · rw [if_neg hc, if_neg ?_]
        intro hc2
        apply hc
        refine ⟨?_, hc2.2⟩
        rcases Nat.lt_succ_iff_lt_or_eq.1 hc2.1 with h | h
        · exact h
        · subst h
          exact absurd hc2.2 hpm

theorem markers_contain_unused :
    ∀ m ∈ markerStrings, strContains m "unused" = true := by decide

/-- Claim C8 (amended): the `answer_position_mask` of a Feature has the
fixed length `max_seq_length` and is 1 exactly at the encoded positions
(below the real token count) whose token contains the substring
`"unused"`, and 0 everywhere else including the padding; when the only
tokens containing `"unused"` are the reserved blank markers - the
assumption under which the claim was written - this coincides with "1
exactly at the blank-marker positions". -/
theorem answer_mask_characterization (max_seq_length : Nat) (tokens : List String)
    (hlen : tokens.length ≤ max_seq_length)
    (hmk : ∀ tk ∈ tokens, strContains tk "unused" = true → tk ∈ markerStrings) :
    (answer_position_mask max_seq_length tokens).length = max_seq_length ∧
    (∀ j, j < max_seq_length →
      ((answer_position_mask max_seq_length tokens).getD j 0 = 1 ↔
        (j < tokens.length ∧ strContains (tokens.getD j "") "unused" = true))) ∧
    (∀ j, j < max_seq_length →
      ((answer_position_mask max_seq_length tokens).getD j 0 = 1 ↔
        (j < tokens.length ∧ tokens.getD j "" ∈ markerStrings))) := by
  have hchar : ∀ j, j < max_seq_length →
      (answer_position_mask max_seq_length tokens).getD j 0 =
        if j < tokens.length ∧ strContains (tokens.getD j "") "unused" = true then 1
        else 0 := by
    intro j hj
    unfold answer_position_mask
    rw [mask_foldl_getD _ _ tokens.length (by simp; omega) j (by simp; omega)]
    by_cases hc : j < tokens.length ∧ strContains (tokens.getD j "") "unused" = true
    · rw [if_pos hc, if_pos hc]
    · rw [if_neg hc, if_neg hc, List.getD_eq_getElem?_getD,
        List.getElem?_replicate_of_lt hj]
      rfl
  have hmem : ∀ j, j < tokens.length → tokens.getD j "" ∈ tokens := by
    intro j hjt
    rw [List.getD_eq_getElem?_getD, List.getElem?_eq_getElem hjt]
    exact List.getElem_mem hjt
  refine ⟨?_, ?_, ?_⟩
  · unfold answer_position_mask
    rw [mask_foldl_length]
    simp
  · intro j hj
    rw [hchar j hj]
    by_cases hc : j < tokens.length ∧ strContains (tokens.getD j "") "unused" = true
    · rw [if_pos hc]
      exact ⟨fun _ => hc, fun _ => rfl⟩
    · rw [if_neg hc]
      exact ⟨fun h => absurd h (by decide), fun h => absurd h hc⟩
  · intro j hj
    rw [hchar j hj]
    by_cases hc : j < tokens.length ∧ strContains (tokens.getD j "") "unused" = true
    · rw [if_pos hc]
      exact ⟨fun _ => ⟨hc.1, hmk _ (hmem j hc.1) hc.2⟩, fun _ => rfl⟩
    · rw [if_neg hc]
      refine ⟨fun h => absurd h (by decide), fun h => ?_⟩
      exact absurd ⟨h.1, markers_contain_unused _ h.2⟩ hc

theorem answer_mask_characterization_witness :
    ((buildTokens ["q"] ["[unused1]", "x"] ⟨0, 2⟩).length ≤ 8 ∧
      (∀ tk ∈ buildTokens ["q"] ["[unused1]", "x"] ⟨0, 2⟩,
        strContains tk "unused" = true → tk ∈ markerStrings)) ∧
    ((answer_position_mask 8 (buildTokens ["q"] ["[unused1]", "x"] ⟨0, 2⟩)).getD 3 0 = 1 ↔
      (3 < (buildTokens ["q"] ["[unused1]", "x"] ⟨0, 2⟩).length ∧
        (buildTokens ["q"] ["[unused1]", "x"] ⟨0, 2⟩).getD 3 "" ∈ markerStrings)) :=
  ⟨⟨by decide, by decide⟩,
    (answer_mask_characterization 8 (buildTokens ["q"] ["[unused1]", "x"] ⟨0, 2⟩)
      (by decide) (by decide)).2.2 3 (by decide)⟩

/-- Counterexample to claim C8 as stated: the mask test is a substring
check, not a blank-marker check, and it also runs over the query
segment.  With the query token `"unused"` (an ordinary word, not one of
the 15 reserved markers), the built Feature's mask is 1 at encoded
position 1 - a query position whose underlying token is not a blank
marker. -/
theorem answer_mask_query_counterexample :
    (answer_position_mask 8 (buildTokens ["unused"] ["x"] ⟨0, 1⟩)).getD 1 0 = 1 ∧
    (buildTokens ["unused"] ["x"] ⟨0, 1⟩).getD 1 "" = "unused" ∧
    "unused" ∉ markerStrings := by
  decide

/-! ## Claim C9: `get_final_text` fallbacks -/

/-- Claim C9: `get_final_text` returns `orig_text` unchanged whenever
`pred_text` is not a substring of the space-joined re-tokenization of
`orig_text`, or whenever the two strings differ in length after
stripping all spaces; and in every failure case the result is exactly
the untouched original span (any other result is a slice of
`orig_text` produced by the successful alignment path). -/
theorem get_final_text_fallback (basicTok : String → List String)
    (pred_text orig_text : String) :
    (findSub (joinSpace (basicTok orig_text)).data pred_text.data = none →
      get_final_text basicTok pred_text orig_text = orig_text) ∧
    ((strip_spaces orig_text).1.length ≠
        (strip_spaces (joinSpace (basicTok orig_text))).1.length →
      get_final_text basicTok pred_text orig_text = orig_text) ∧
    (get_final_text basicTok pred_text orig_text = orig_text ∨
      ∃ a b, get_final_text basicTok pred_text orig_text = sliceStr orig_text a b) := by
  refine ⟨?_, ?_, ?_⟩
  · intro h
    simp only [get_final_text, h]
  · intro h
    simp only [get_final_text]
    cases hfind : findSub (joinSpace (basicTok orig_text)).data pred_text.data with
    | none => rfl
    | some sp => simp [h]
  · simp only [get_final_text]
    split
    · exact Or.inl rfl
    split
    · exact Or.inl rfl
    split
    · exact Or.inl rfl
    split
    · exact Or.inl rfl
    split
    · exact Or.inl rfl
    split
    · exact Or.inl rfl
    exact Or.inr ⟨_, _, rfl⟩

theorem get_final_text_fallback_witness :
    findSub (joinSpace ((fun (_ : String) => ["ab"]) "a b")).data "zz".data = none ∧
    get_final_text (fun _ => ["ab"]) "zz" "a b" = "a b" :=
  ⟨by decide, (get_final_text_fallback (fun _ => ["ab"]) "zz" "a b").1 (by decide)⟩

end Cmrc2019
